import Mathlib

/-
  Verification development for the Omnis encrypted messaging client.

  This file gives a shallow embedding, in Lean 4, of the session layer of the
  Omnis client: the cryptographic engine (src/engine/services/crypto.ts), the
  local store adapters (src/engine/services/database.web.ts and
  database.native.ts), the chat state management (src/engine/context/
  ChatContext.tsx) and the REST layer (the api service), together with proofs
  and refutations of the specification's claims about them.

  Modelling conventions:
  * `Uint8Array` values are modelled as `List Nat`, each entry a byte < 256
    (`ValidBytes`); JavaScript strings that carry binary data (base64 blobs)
    are modelled as the list of their character codes, also `List Nat`.
  * 128-bit AES blocks are modelled as `Nat` below `2 ^ 128`, big-endian:
    the first byte of the block is the most significant byte of the number.
  * The @noble third-party primitives called by crypto.ts (AES-256-GCM,
    SHA-256, HKDF, P-384) are embedded concretely from their public
    specifications (FIPS 197, NIST SP 800-38D, FIPS 180-4, RFC 5869), which
    those libraries implement; elliptic-curve arithmetic is modelled by the
    affine group law on a Weierstrass curve, kept generic over the base
    field so that the group structure from Mathlib applies.
  * Asynchronous functions are modelled as pure state-passing functions;
    thrown exceptions become `Option`/`Except` values.
-/

namespace Omnis

/-- Byte strings: lists of naturals, each intended to be < 256. -/
abbrev Bytes := List Nat

/-- Validity of a byte string: every entry is an actual byte. -/
def ValidBytes (l : Bytes) : Prop := ∀ b ∈ l, b < 256

instance (l : Bytes) : Decidable (ValidBytes l) := List.decidableBAll _ l

/-- Byte-wise exclusive or (zipWith, truncating to the shorter list),
matching JS `a[i] ^ b[i]` loops. -/
def xorBytes (a b : Bytes) : Bytes := List.zipWith (fun x y => x ^^^ y) a b

/-- Big-endian conversion of a natural to a fixed-width byte list. -/
def natToBytesBE : Nat → Nat → Bytes
  | 0, _ => []
  | w + 1, n => natToBytesBE w (n / 256) ++ [n % 256]

/-- Big-endian interpretation of a byte list as a natural. -/
def bytesToNatBE (l : Bytes) : Nat := l.foldl (fun acc b => acc * 256 + b) 0

theorem natToBytesBE_length (w n : Nat) : (natToBytesBE w n).length = w := by
  induction w generalizing n with
  | zero => rfl
  | succ w ih => simp [natToBytesBE, ih]

theorem natToBytesBE_valid (w n : Nat) : ValidBytes (natToBytesBE w n) := by
  induction w generalizing n with
  | zero => intro b hb; simp [natToBytesBE] at hb
  | succ w ih =>
    intro b hb
    simp only [natToBytesBE, List.mem_append, List.mem_singleton] at hb
    rcases hb with hb | hb
    · exact ih _ b hb
    · subst hb; exact Nat.mod_lt _ (by norm_num)

theorem xorBytes_length (a b : Bytes) :
    (xorBytes a b).length = min a.length b.length := by
  simp [xorBytes]

theorem xorBytes_xorBytes_cancel (a : Bytes) :
    ∀ b : Bytes, b.length = a.length → xorBytes (xorBytes a b) b = a := by
  induction a with
  | nil => intro b h; cases b <;> simp [xorBytes] at h ⊢
  | cons x xs ih =>
    intro b h
    cases b with
    | nil => simp at h
    | cons y ys =>
      simp only [List.length_cons, Nat.succ.injEq] at h
      simp only [xorBytes, List.zipWith_cons_cons, List.cons.injEq]
      constructor
      · rw [Nat.xor_assoc, Nat.xor_self, Nat.xor_zero]
      · exact ih ys h

theorem xorBytes_valid (a : Bytes) :
    ∀ b : Bytes, ValidBytes a → ValidBytes b → ValidBytes (xorBytes a b) := by
  induction a with
  | nil => intro b _ _ c hc; simp [xorBytes] at hc
  | cons x xs ih =>
    intro b ha hb c hc
    cases b with
    | nil => simp [xorBytes] at hc
    | cons y ys =>
      simp only [xorBytes, List.zipWith_cons_cons, List.mem_cons] at hc
      rcases hc with rfl | hc
      · have hx : x < 2 ^ 8 := ha x (by simp)
        have hy : y < 2 ^ 8 := hb y (by simp)
        exact Nat.xor_lt_two_pow hx hy
      · exact ih ys (fun u hu => ha u (by simp [hu])) (fun u hu => hb u (by simp [hu])) c hc

-- ==================== Base64 (base64-js fromByteArray / toByteArray) ====================

/-- The base64 alphabet: maps a sextet 0..63 to its ASCII character code. -/
def b64char (i : Nat) : Nat :=
  if i < 26 then 65 + i
  else if i < 52 then 97 + (i - 26)
  else if i < 62 then 48 + (i - 52)
  else if i = 62 then 43
  else 47

/-- Inverse of the base64 alphabet; `none` for characters outside it. -/
def b64val (c : Nat) : Option Nat :=
  if 65 ≤ c ∧ c ≤ 90 then some (c - 65)
  else if 97 ≤ c ∧ c ≤ 122 then some (26 + (c - 97))
  else if 48 ≤ c ∧ c ≤ 57 then some (52 + (c - 48))
  else if c = 43 then some 62
  else if c = 47 then some 63
  else none

theorem b64val_b64char (i : Nat) (h : i < 64) : b64val (b64char i) = some i := by
  interval_cases i <;> rfl

theorem b64char_ne_pad (i : Nat) (h : i < 64) : b64char i ≠ 61 := by
  interval_cases i <;> decide

/-- Base64 encoding of a byte list (character codes, with `=` padding),
as performed by base64-js `fromByteArray`. -/
def encodeB64 : Bytes → Bytes
  | [] => []
  | [a] => [b64char (a / 4), b64char (a % 4 * 16), 61, 61]
  | [a, b] => [b64char (a / 4), b64char (a % 4 * 16 + b / 16), b64char (b % 16 * 4), 61]
  | a :: b :: c :: rest =>
    b64char (a / 4) :: b64char (a % 4 * 16 + b / 16) ::
      b64char (b % 16 * 4 + c / 64) :: b64char (c % 64) :: encodeB64 rest

/-- Base64 decoding (base64-js `toByteArray`); `none` on malformed input. -/
def decodeB64 : Bytes → Option Bytes
  | [] => some []
  | c1 :: c2 :: c3 :: c4 :: rest =>
    match b64val c1, b64val c2 with
    | some v1, some v2 =>
      if c3 = 61 then
        if c4 = 61 ∧ rest = [] then some [v1 * 4 + v2 / 16] else none
      else
        match b64val c3 with
        | some v3 =>
          if c4 = 61 then
            if rest = [] then some [v1 * 4 + v2 / 16, v2 % 16 * 16 + v3 / 4] else none
          else
            match b64val c4, decodeB64 rest with
            | some v4, some tl =>
              some ((v1 * 4 + v2 / 16) :: (v2 % 16 * 16 + v3 / 4) :: (v3 % 4 * 64 + v4) :: tl)
            | _, _ => none
        | none => none
    | _, _ => none
  | _ => none

theorem b64_byte1 {a : Nat} (ha : a < 256) : a / 4 * 4 + a % 4 * 16 / 16 = a := by
  rw [Nat.mul_div_cancel _ (by norm_num : 0 < 16)]
  omega

theorem b64_byte2 {a b z : Nat} (hb : b < 256) (hz : z < 4) :
    (a % 4 * 16 + b / 16) % 16 * 16 + (b % 16 * 4 + z) / 4 = b := by
  have h1 : (a % 4 * 16 + b / 16) % 16 = b / 16 := by
    rw [Nat.add_comm, Nat.add_mul_mod_self_right]
    exact Nat.mod_eq_of_lt (by omega)
  have h2 : (b % 16 * 4 + z) / 4 = b % 16 := by
    rw [Nat.add_comm, Nat.add_mul_div_right _ _ (by norm_num : 0 < 4)]
    omega
  rw [h1, h2]
  omega

theorem b64_byte3 {b c : Nat} (hc : c < 256) :
    (b % 16 * 4 + c / 64) % 4 * 64 + c % 64 = c := by
  have h1 : (b % 16 * 4 + c / 64) % 4 = c / 64 := by
    rw [Nat.add_comm, Nat.add_mul_mod_self_right]
    exact Nat.mod_eq_of_lt (by omega)
  rw [h1]
  omega

theorem decodeB64_encodeB64 (l : Bytes) (hv : ValidBytes l) :
    decodeB64 (encodeB64 l) = some l := by
  induction l using encodeB64.induct with
  | case1 => simp [encodeB64, decodeB64]
  | case2 a =>
    have ha : a < 256 := hv a (by simp)
    have h1 : a / 4 < 64 := by omega
    have h2 : a % 4 * 16 < 64 := by omega
    simp only [encodeB64, decodeB64, b64val_b64char _ h1, b64val_b64char _ h2,
      if_pos rfl, and_self, if_pos]
    rw [b64_byte1 ha]
  | case3 a b =>
    have ha : a < 256 := hv a (by simp)
    have hb : b < 256 := hv b (by simp)
    have h1 : a / 4 < 64 := by omega
    have h2 : a % 4 * 16 + b / 16 < 64 := by omega
    have h3 : b % 16 * 4 < 64 := by omega
    simp only [encodeB64, decodeB64, b64val_b64char _ h1, b64val_b64char _ h2,
      b64val_b64char _ h3, if_neg (b64char_ne_pad _ h3), if_pos rfl]
    have e1 : a / 4 * 4 + (a % 4 * 16 + b / 16) / 16 = a := by
      have : (a % 4 * 16 + b / 16) / 16 = a % 4 := by
        rw [Nat.add_comm, Nat.add_mul_div_right _ _ (by norm_num : 0 < 16)]
        omega
      rw [this]; omega
    have e2 : (a % 4 * 16 + b / 16) % 16 * 16 + b % 16 * 4 / 4 = b := by
      have := b64_byte2 (a := a) (z := 0) hb (by norm_num)
      simpa using this
    rw [e1, e2]
    simp
  | case4 a b c rest ih =>
    have ha : a < 256 := hv a (by simp)
    have hb : b < 256 := hv b (by simp)
    have hc : c < 256 := hv c (by simp)
    have hrest : ValidBytes rest := fun u hu => hv u (by simp [hu])
    have h1 : a / 4 < 64 := by omega
    have h2 : a % 4 * 16 + b / 16 < 64 := by omega
    have h3 : b % 16 * 4 + c / 64 < 64 := by omega
    have h4 : c % 64 < 64 := by omega
    simp only [encodeB64, decodeB64, b64val_b64char _ h1, b64val_b64char _ h2,
      b64val_b64char _ h3, b64val_b64char _ h4, if_neg (b64char_ne_pad _ h3),
      if_neg (b64char_ne_pad _ h4), ih hrest]
    have e1 : a / 4 * 4 + (a % 4 * 16 + b / 16) / 16 = a := by
      have : (a % 4 * 16 + b / 16) / 16 = a % 4 := by
        rw [Nat.add_comm, Nat.add_mul_div_right _ _ (by norm_num : 0 < 16)]
        omega
      rw [this]; omega
    rw [e1, b64_byte2 hb (by omega), b64_byte3 hc]

theorem b64char_lt (i : Nat) (h : i < 64) : b64char i < 256 := by
  interval_cases i <;> decide

theorem encodeB64_valid (l : Bytes) (hv : ValidBytes l) : ValidBytes (encodeB64 l) := by
  induction l using encodeB64.induct with
  | case1 => intro u hu; simp [encodeB64] at hu
  | case2 a =>
    have ha : a < 256 := hv a (by simp)
    intro u hu
    simp only [encodeB64, List.mem_cons, List.not_mem_nil, or_false] at hu
    rcases hu with rfl | rfl | rfl | rfl
    · exact b64char_lt _ (by omega)
    · exact b64char_lt _ (by omega)
    · omega
    · omega
  | case3 a b =>
    have ha : a < 256 := hv a (by simp)
    have hb : b < 256 := hv b (by simp)
    intro u hu
    simp only [encodeB64, List.mem_cons, List.not_mem_nil, or_false] at hu
    rcases hu with rfl | rfl | rfl | rfl
    · exact b64char_lt _ (by omega)
    · exact b64char_lt _ (by omega)
    · exact b64char_lt _ (by omega)
    · omega
  | case4 a b c rest ih =>
    have ha : a < 256 := hv a (by simp)
    have hb : b < 256 := hv b (by simp)
    have hc : c < 256 := hv c (by simp)
    have hrest : ValidBytes rest := fun u hu => hv u (by simp [hu])
    intro u hu
    simp only [encodeB64, List.mem_cons] at hu
    rcases hu with rfl | rfl | rfl | rfl | hu
    · exact b64char_lt _ (by omega)
    · exact b64char_lt _ (by omega)
    · exact b64char_lt _ (by omega)
    · exact b64char_lt _ (by omega)
    · exact ih hrest u hu

-- ==================== AES-256 (FIPS 197), blocks as 128-bit naturals ====================

/-- The AES S-box packed into one natural: byte `i` of the table sits at bits
`8 * i`. -/
def SBOX_NAT : Nat := 2869618975290639062594974519597816386035077209210385677284518162336985023502962151465775969507961862820568736543004676439868535775640188584098917533413284844376797297285941524888791401501466624530423689326528054213168201056672989590893583853414110162539122864583953358348775951166211353578440977400428507475679327181038682772945817200201960445064847785221508011893952350688324234443749897213621340677040612747745615276448919507935121141307752692835344166708617454322778699219895865633266409040561742768581056182730443599545881830075941537620590442514083341749674612746994879540562701631131184186066652929592955206755

/-- AES S-box lookup of one byte. -/
def sboxByte (b : Nat) : Nat := (SBOX_NAT >>> (8 * b)) % 256

/-- Apply the S-box to each byte of a 32-bit word. -/
def subWord (w : Nat) : Nat :=
  sboxByte ((w >>> 24) % 256) * 2 ^ 24 + sboxByte ((w >>> 16) % 256) * 2 ^ 16 +
    sboxByte ((w >>> 8) % 256) * 2 ^ 8 + sboxByte (w % 256)

/-- Rotate a 32-bit word left by one byte. -/
def rotWord (w : Nat) : Nat := (w % 2 ^ 24) * 256 + (w >>> 24) % 256

/-- AES round constants as 32-bit words (only 7 are used by AES-256). -/
def rconW (j : Nat) : Nat := ([1, 2, 4, 8, 16, 32, 64].getD (j - 1) 0) * 2 ^ 24

/-- First `n` words of the AES-256 key schedule (FIPS 197 KeyExpansion),
for a key given as a 256-bit natural. -/
def keyWordsUpTo (key : Nat) : Nat → List Nat
  | 0 => []
  | n + 1 =>
    let ws := keyWordsUpTo key n
    let w :=
      if n < 8 then (key >>> (32 * (7 - n))) % 2 ^ 32
      else
        let t := ws.getD (n - 1) 0
        let t2 :=
          if n % 8 = 0 then (subWord (rotWord t)) ^^^ rconW (n / 8)
          else if n % 8 = 4 then subWord t
          else t
        (ws.getD (n - 8) 0) ^^^ t2
    ws ++ [w]

/-- The 60-word AES-256 key schedule. -/
def keyWords (key : Nat) : List Nat := keyWordsUpTo key 60

/-- Round key `r` as a 128-bit natural (four consecutive schedule words). -/
def roundKey (ws : List Nat) (r : Nat) : Nat :=
  ws.getD (4 * r) 0 * 2 ^ 96 + ws.getD (4 * r + 1) 0 * 2 ^ 64 +
    ws.getD (4 * r + 2) 0 * 2 ^ 32 + ws.getD (4 * r + 3) 0

/-- SubBytes on the 16 state bytes. -/
def subBytesL (s : Bytes) : Bytes := s.map sboxByte

/-- ShiftRows on the state bytes in block order (flat index `4 * c + r`). -/
def shiftRowsL (s : Bytes) : Bytes :=
  match s with
  | [b0, b1, b2, b3, b4, b5, b6, b7, b8, b9, b10, b11, b12, b13, b14, b15] =>
    [b0, b5, b10, b15, b4, b9, b14, b3, b8, b13, b2, b7, b12, b1, b6, b11]
  | _ => s

/-- Multiplication by x in GF(2^8) with the AES reduction polynomial. -/
def xtime (b : Nat) : Nat := if b < 128 then b * 2 else (b * 2) ^^^ 0x11B

/-- MixColumns on one four-byte column. -/
def mixCol (a0 a1 a2 a3 : Nat) : List Nat :=
  [xtime a0 ^^^ (xtime a1 ^^^ a1) ^^^ a2 ^^^ a3,
   a0 ^^^ xtime a1 ^^^ (xtime a2 ^^^ a2) ^^^ a3,
   a0 ^^^ a1 ^^^ xtime a2 ^^^ (xtime a3 ^^^ a3),
   (xtime a0 ^^^ a0) ^^^ a1 ^^^ a2 ^^^ xtime a3]

/-- MixColumns on the 16 state bytes. -/
def mixColumnsL (s : Bytes) : Bytes :=
  match s with
  | [b0, b1, b2, b3, b4, b5, b6, b7, b8, b9, b10, b11, b12, b13, b14, b15] =>
    mixCol b0 b1 b2 b3 ++ mixCol b4 b5 b6 b7 ++ mixCol b8 b9 b10 b11 ++ mixCol b12 b13 b14 b15
  | _ => s

/-- One middle AES round (SubBytes, ShiftRows, MixColumns, AddRoundKey). -/
def aesRound (rk s : Nat) : Nat :=
  bytesToNatBE (mixColumnsL (shiftRowsL (subBytesL (natToBytesBE 16 s)))) ^^^ rk

/-- AES-256 block encryption: 256-bit key and 128-bit block as naturals. -/
def aes256Block (key block : Nat) : Nat :=
  let ws := keyWords key
  let s0 := block ^^^ roundKey ws 0
  let s13 := (List.range 13).foldl (fun st i => aesRound (roundKey ws (i + 1)) st) s0
  bytesToNatBE (shiftRowsL (subBytesL (natToBytesBE 16 s13))) ^^^ roundKey ws 14

-- ==================== GCM mode (NIST SP 800-38D) ====================

/-- The GCM reduction constant R (bit string 11100001 followed by zeros). -/
def gcmR : Nat := 0xe1000000000000000000000000000000

/-- One shift-and-reduce step of the GCM GF(2^128) multiplication. -/
def gfStep (v : Nat) : Nat := if v % 2 = 1 then (v / 2) ^^^ gcmR else v / 2

/-- Loop of the GCM multiplication: fuel counts down, examining bit
`fuel - 1` of `x` (bit string index `128 - fuel`). -/
def gfMulAux (x : Nat) : Nat → Nat → Nat → Nat
  | 0, z, _ => z
  | f + 1, z, v => gfMulAux x f (if x.testBit f then z ^^^ v else z) (gfStep v)

/-- Multiplication in GF(2^128) with the GCM bit convention, blocks as
128-bit naturals. -/
def gfMul (x y : Nat) : Nat := gfMulAux x 128 0 y

/-- Helper for `toBlocks`: `acc` carries the bytes of the current,
not yet complete 16-byte chunk. -/
def toBlocksAux : Bytes → Bytes → List Nat
  | acc, [] =>
    if acc.isEmpty then [] else [bytesToNatBE acc <<< (8 * (16 - acc.length))]
  | acc, b :: rest =>
    if acc.length = 15 then (bytesToNatBE (acc ++ [b])) :: toBlocksAux [] rest
    else toBlocksAux (acc ++ [b]) rest

/-- Chunk a byte string into 128-bit blocks, zero-padding the last chunk. -/
def toBlocks (l : Bytes) : List Nat := toBlocksAux [] l

/-- GHASH over a list of blocks. -/
def ghash (h : Nat) (blocks : List Nat) : Nat :=
  blocks.foldl (fun y blk => gfMul (y ^^^ blk) h) 0

/-- The pre-counter block J0 for a 12-byte nonce. -/
def j0Of (nonce : Bytes) : Nat := bytesToNatBE nonce * 2 ^ 32 + 1

/-- Increment the low 32 bits of a counter block. -/
def inc32 (j : Nat) : Nat := (j / 2 ^ 32) * 2 ^ 32 + ((j + 1) % 2 ^ 32)

/-- CTR keystream: `n` blocks starting at `inc32 j`. -/
def keystream (key j : Nat) : Nat → Bytes
  | 0 => []
  | n + 1 => natToBytesBE 16 (aes256Block key (inc32 j)) ++ keystream key (inc32 j) n

/-- First `len` bytes of the CTR keystream. -/
def keystreamBytes (key j len : Nat) : Bytes :=
  (keystream key j ((len + 15) / 16)).take len

/-- CTR encryption/decryption (its own inverse). -/
def ctrCrypt (key j : Nat) (data : Bytes) : Bytes :=
  xorBytes data (keystreamBytes key j data.length)

/-- The GCM authentication tag over a ciphertext (no associated data). -/
def gcmTag (key j0 : Nat) (ct : Bytes) : Nat :=
  ghash (aes256Block key 0) (toBlocks ct ++ [ct.length * 8]) ^^^ aes256Block key j0

/-- AES-256-GCM encryption: returns ciphertext followed by the 16-byte tag,
as produced by @noble/ciphers `gcm(key, nonce).encrypt`. -/
def gcmEncrypt (key : Nat) (nonce pt : Bytes) : Bytes :=
  let j0 := j0Of nonce
  let ct := ctrCrypt key j0 pt
  ct ++ natToBytesBE 16 (gcmTag key j0 ct)

/-- AES-256-GCM decryption; `none` models the tag-mismatch exception thrown
by @noble/ciphers `gcm(key, nonce).decrypt`. -/
def gcmDecrypt (key : Nat) (nonce data : Bytes) : Option Bytes :=
  if data.length < 16 then none
  else
    let ctLen := data.length - 16
    let ct := data.take ctLen
    let tag := data.drop ctLen
    let j0 := j0Of nonce
    if natToBytesBE 16 (gcmTag key j0 ct) = tag then some (ctrCrypt key j0 ct) else none

theorem keystream_length (key j n : Nat) : (keystream key j n).length = 16 * n := by
  induction n generalizing j with
  | zero => rfl
  | succ n ih => simp [keystream, ih, natToBytesBE_length]; omega

theorem keystreamBytes_length (key j len : Nat) :
    (keystreamBytes key j len).length = len := by
  simp only [keystreamBytes, List.length_take, keystream_length]
  omega

theorem keystream_valid (key j n : Nat) : ValidBytes (keystream key j n) := by
  induction n generalizing j with
  | zero => intro b hb; simp [keystream] at hb
  | succ n ih =>
    intro b hb
    simp only [keystream, List.mem_append] at hb
    rcases hb with hb | hb
    · exact natToBytesBE_valid _ _ b hb
    · exact ih _ b hb

theorem keystreamBytes_valid (key j len : Nat) : ValidBytes (keystreamBytes key j len) :=
  fun b hb => keystream_valid key j _ b (List.mem_of_mem_take hb)

theorem ctrCrypt_length (key j : Nat) (d : Bytes) :
    (ctrCrypt key j d).length = d.length := by
  simp [ctrCrypt, xorBytes_length, keystreamBytes_length]

theorem ctrCrypt_ctrCrypt (key j : Nat) (d : Bytes) :
    ctrCrypt key j (ctrCrypt key j d) = d := by
  unfold ctrCrypt
  have h1 : (xorBytes d (keystreamBytes key j d.length)).length = d.length := by
    rw [xorBytes_length, keystreamBytes_length]; omega
  rw [h1]
  exact xorBytes_xorBytes_cancel d _ (keystreamBytes_length key j d.length)

theorem ctrCrypt_valid (key j : Nat) (d : Bytes) (hd : ValidBytes d) :
    ValidBytes (ctrCrypt key j d) :=
  xorBytes_valid d _ hd (keystreamBytes_valid key j d.length)

/-- GCM round-trip: decryption of an encryption returns the plaintext. -/
theorem gcmDecrypt_gcmEncrypt (key : Nat) (nonce pt : Bytes) :
    gcmDecrypt key nonce (gcmEncrypt key nonce pt) = some pt := by
  have hct : (ctrCrypt key (j0Of nonce) pt).length = pt.length := ctrCrypt_length _ _ _
  simp only [gcmEncrypt, gcmDecrypt]
  have hlen : (ctrCrypt key (j0Of nonce) pt ++
      natToBytesBE 16 (gcmTag key (j0Of nonce) (ctrCrypt key (j0Of nonce) pt))).length =
      pt.length + 16 := by
    simp [List.length_append, natToBytesBE_length, hct]
  rw [hlen, if_neg (by omega)]
  have hidx : pt.length + 16 - 16 = (ctrCrypt key (j0Of nonce) pt).length := by omega
  rw [hidx, List.take_left, List.drop_left, if_pos rfl, ctrCrypt_ctrCrypt]

-- ==================== SHA-256 (FIPS 180-4), HMAC, HKDF (RFC 5869) ====================

/-- The 64 SHA-256 round constants packed into one natural: word `i` of
the table sits at bits `32 * i`. -/
def K256_NAT : Nat := 25051139735836467913601071899189108501681633092613316132753366958947502841281110980347811086624969305314199562795868290539880502533646505489797110349007385020507326982043050618112420254613810441709594605123090411975756494285771699200369901479195251226368983824020564277645963860728452821576845901498668417244438721537663670541944820957180957595559282976806173113161068298822071065329290006052849814285001949914564097058408480133985233335799884203712730341384999677089997083749077591931498939520449886954646413138343858395935213418018409268340744776361518554939863400075967197509182087778881547827184266701615699472280

/-- Round-constant lookup. -/
def k256 (i : Nat) : Nat := (K256_NAT >>> (32 * i)) % 2 ^ 32

/-- The SHA-256 initial hash value packed into one natural: word `i` sits
at bits `32 * i`. -/
def H256_NAT : Nat := 41557658498906279274860226408925318911382702236748615442085426012007055353447

/-- The SHA-256 initial hash value as eight 32-bit words. -/
def H256 : List Nat := (List.range 8).map fun i => (H256_NAT >>> (32 * i)) % 2 ^ 32

/-- Rotate a 32-bit word right by `n` bits. -/
def rotr32 (n x : Nat) : Nat := x / 2 ^ n + x % 2 ^ n * 2 ^ (32 - n)

/-- SHA-256 big sigma 0. -/
def bsig0 (x : Nat) : Nat := rotr32 2 x ^^^ rotr32 13 x ^^^ rotr32 22 x

/-- SHA-256 big sigma 1. -/
def bsig1 (x : Nat) : Nat := rotr32 6 x ^^^ rotr32 11 x ^^^ rotr32 25 x

/-- SHA-256 small sigma 0. -/
def ssig0 (x : Nat) : Nat := rotr32 7 x ^^^ rotr32 18 x ^^^ (x >>> 3)

/-- SHA-256 small sigma 1. -/
def ssig1 (x : Nat) : Nat := rotr32 17 x ^^^ rotr32 19 x ^^^ (x >>> 10)

/-- SHA-256 choice function. -/
def chF (x y z : Nat) : Nat := (x &&& y) ^^^ ((x ^^^ 0xffffffff) &&& z)

/-- SHA-256 majority function. -/
def majF (x y z : Nat) : Nat := (x &&& y) ^^^ (x &&& z) ^^^ (y &&& z)

/-- First `n` words of the SHA-256 message schedule for one 16-word block. -/
def schedUpTo (block : List Nat) : Nat → List Nat
  | 0 => []
  | n + 1 =>
    let ws := schedUpTo block n
    let w :=
      if n < 16 then block.getD n 0
      else (ssig1 (ws.getD (n - 2) 0) + ws.getD (n - 7) 0 +
            ssig0 (ws.getD (n - 15) 0) + ws.getD (n - 16) 0) % 2 ^ 32
    ws ++ [w]

/-- One SHA-256 compression round on the eight working variables. -/
def compressStep (k w : Nat) (st : List Nat) : List Nat :=
  match st with
  | [a, b, c, d, e, f, g, h] =>
    let t1 := (h + bsig1 e + chF e f g + k + w) % 2 ^ 32
    let t2 := (bsig0 a + majF a b c) % 2 ^ 32
    [(t1 + t2) % 2 ^ 32, a, b, c, (d + t1) % 2 ^ 32, e, f, g]
  | _ => st

/-- SHA-256 compression of one 16-word block into the chaining value. -/
def sha256Compress (hs block : List Nat) : List Nat :=
  let ws := schedUpTo block 64
  let st := (List.range 64).foldl
    (fun st i => compressStep (k256 i) (ws.getD i 0) st) hs
  List.zipWith (fun x y => (x + y) % 2 ^ 32) hs st

/-- Group bytes into big-endian 32-bit words (input length a multiple of 4). -/
def words32 : Bytes → List Nat
  | b0 :: b1 :: b2 :: b3 :: rest =>
    (b0 * 2 ^ 24 + b1 * 2 ^ 16 + b2 * 2 ^ 8 + b3) :: words32 rest
  | _ => []

/-- Fold the compression function over consecutive 16-word blocks. -/
def sha256Blocks (hs ws : List Nat) : List Nat :=
  match ws with
  | w0 :: w1 :: w2 :: w3 :: w4 :: w5 :: w6 :: w7 ::
      w8 :: w9 :: w10 :: w11 :: w12 :: w13 :: w14 :: w15 :: rest =>
    sha256Blocks (sha256Compress hs [w0, w1, w2, w3, w4, w5, w6, w7, w8, w9, w10, w11, w12, w13, w14, w15]) rest
  | _ => hs

/-- SHA-256 of a byte string. -/
def sha256 (msg : Bytes) : Bytes :=
  let len := msg.length
  let padZeros := (64 - (len + 9) % 64) % 64
  let padded := msg ++ 128 :: (List.replicate padZeros 0 ++ natToBytesBE 8 (len * 8))
  ((sha256Blocks H256 (words32 padded)).map (natToBytesBE 4)).join

/-- HMAC-SHA256 (RFC 2104 / FIPS 198-1). -/
def hmacSHA256 (key msg : Bytes) : Bytes :=
  let k0 :=
    if 64 < key.length then sha256 key ++ List.replicate 32 0
    else key ++ List.replicate (64 - key.length) 0
  sha256 ((k0.map (fun b => b ^^^ 0x5c)) ++ sha256 ((k0.map (fun b => b ^^^ 0x36)) ++ msg))

/-- HKDF-Expand output blocks: `prev` is the previous block T(i-1), `i` the
one-byte counter of the next block. -/
def hkdfExpandAux (prk info : Bytes) : Bytes → Nat → Nat → Bytes
  | _, _, 0 => []
  | prev, i, n + 1 =>
    let t := hmacSHA256 prk (prev ++ info ++ [i % 256])
    t ++ hkdfExpandAux prk info t (i + 1) n

/-- HKDF-SHA256 (extract then expand), as @noble/hashes
`hkdf(sha256, ikm, salt, info, len)`. -/
def hkdfSHA256 (ikm salt info : Bytes) (len : Nat) : Bytes :=
  let prk := hmacSHA256 salt ikm
  (hkdfExpandAux prk info [] 1 ((len + 31) / 32)).take len

-- ==================== Elliptic curve arithmetic (P-384 / generic Weierstrass) ====================

/-
  noble's `p384.getSharedSecret` computes scalar multiplication on the NIST
  P-384 short Weierstrass curve. The curve arithmetic is modelled by the
  affine group law of `Mathlib.AlgebraicGeometry.EllipticCurve.Affine`, kept
  generic over the base field `F`: instantiating `F` with `ZMod p384` (the
  constants below) yields the concrete curve, but `ZMod p384` can only be
  registered as a `Field` with a primality certificate for the 384-bit
  prime, which is out of reach of kernel computation; all theorems are
  therefore stated for an arbitrary field and curve, which only strengthens
  them.
-/

/-- The P-384 base field prime, 2^384 - 2^128 - 2^96 + 2^32 - 1. -/
def p384 : Nat := 2 ^ 384 - 2 ^ 128 - 2 ^ 96 + 2 ^ 32 - 1

/-- The P-384 curve coefficient b (a = -3). -/
def p384b : Nat := 0xb3312fa7e23ee7e4988e056be3f82d19181d9c6efe8141120314088f5013875ac656398d8a2ed19d2a85c8edd3ec2aef

/-- The P-384 group order. -/
def p384n : Nat := 0xffffffffffffffffffffffffffffffffffffffffffffffffc7634d81f4372ddf581a0db248b0a77aecec196accc52973

section Curve

variable {F : Type} [Field F] [DecidableEq F] {W : WeierstrassCurve.Affine F}

open WeierstrassCurve.Affine

instance (W : WeierstrassCurve.Affine F) (x y : F) : Decidable (W.Nonsingular x y) :=
  decidable_of_iff
    (y ^ 2 + W.a₁ * x * y + W.a₃ * y = x ^ 3 + W.a₂ * x ^ 2 + W.a₄ * x + W.a₆ ∧
      (W.a₁ * y ≠ 3 * x ^ 2 + 2 * W.a₂ * x + W.a₄ ∨ y ≠ W.negY x y))
    (by rw [nonsingular_iff, equation_iff, negY])

/-- A computable version of the slope of the secant/tangent line
(`WeierstrassCurve.Affine.slope` is noncomputable). -/
def slopeC (W : WeierstrassCurve.Affine F) (x₁ x₂ y₁ y₂ : F) : F :=
  if x₁ = x₂ then
    if y₁ = W.negY x₂ y₂ then 0
    else (3 * x₁ ^ 2 + 2 * W.a₂ * x₁ + W.a₄ - W.a₁ * y₁) / (y₁ - W.negY x₁ y₁)
  else (y₁ - y₂) / (x₁ - x₂)

theorem slopeC_eq (W : WeierstrassCurve.Affine F) (x₁ x₂ y₁ y₂ : F) :
    slopeC W x₁ x₂ y₁ y₂ = W.slope x₁ x₂ y₁ y₂ := by
  by_cases hx : x₁ = x₂
  · by_cases hy : y₁ = W.negY x₂ y₂
    · rw [slopeC, if_pos hx, if_pos hy, slope_of_Y_eq hx hy]
    · rw [slopeC, if_pos hx, if_neg hy, slope_of_Y_ne hx hy]
  · rw [slopeC, if_neg hx, slope_of_X_ne hx]

theorem point_some_congr {x₁ y₁ x₂ y₂ : F} (hx : x₁ = x₂) (hy : y₁ = y₂)
    (h₁ : W.Nonsingular x₁ y₁) (h₂ : W.Nonsingular x₂ y₂) :
    Point.some h₁ = Point.some h₂ := by
  subst hx; subst hy; rfl

/-- Computable affine point addition (the chord-tangent group law). -/
def ecAdd : W.Point → W.Point → W.Point
  | Point.zero, P => P
  | P, Point.zero => P
  | @Point.some _ _ _ x₁ y₁ h₁, @Point.some _ _ _ x₂ y₂ h₂ =>
    if h : x₁ = x₂ ∧ y₁ = W.negY x₂ y₂ then Point.zero
    else
      have hn : W.Nonsingular (W.addX x₁ x₂ (slopeC W x₁ x₂ y₁ y₂))
          (W.addY x₁ x₂ y₁ (slopeC W x₁ x₂ y₁ y₂)) := by
        rw [slopeC_eq]
        exact nonsingular_add h₁ h₂ fun hx hy => h ⟨hx, hy⟩
      Point.some hn

theorem ecAdd_eq (P Q : W.Point) : ecAdd P Q = P + Q := by
  cases P with
  | zero => cases Q <;> rfl
  | @some x₁ y₁ h₁ =>
    cases Q with
    | zero => rfl
    | @some x₂ y₂ h₂ =>
      by_cases hc : x₁ = x₂ ∧ y₁ = W.negY x₂ y₂
      · rw [Point.add_of_Y_eq hc.1 hc.2]
        simp only [ecAdd, dif_pos hc, Point.zero_def]
      · rw [Point.add_of_imp fun hx hy => hc ⟨hx, hy⟩]
        simp only [ecAdd, dif_neg hc]
        exact point_some_congr (by rw [slopeC_eq]) (by rw [slopeC_eq]) _ _

/-- Computable scalar multiplication by repeated `ecAdd`. -/
def ecSmul (n : Nat) (P : W.Point) : W.Point :=
  match n with
  | 0 => Point.zero
  | n + 1 => ecAdd P (ecSmul n P)

theorem ecSmul_eq (n : Nat) (P : W.Point) : ecSmul n P = n • P := by
  induction n with
  | zero => simp [ecSmul, Point.zero_def, zero_nsmul]
  | succ n ih => rw [ecSmul, ecAdd_eq, ih, succ_nsmul, add_comm]

/-- The coordinates of a point (`none` for the point at infinity). -/
def coordsOf : W.Point → Option (F × F)
  | Point.zero => none
  | @Point.some _ _ _ x y _ => some (x, y)

theorem point_eq_iff_coords (P Q : W.Point) : P = Q ↔ coordsOf P = coordsOf Q := by
  constructor
  · intro h; rw [h]
  · intro h
    cases P with
    | zero => cases Q with
      | zero => rfl
      | some hQ => simp [coordsOf] at h
    | @some x₁ y₁ h₁ => cases Q with
      | zero => simp [coordsOf] at h
      | @some x₂ y₂ h₂ =>
        simp only [coordsOf, Option.some.injEq, Prod.mk.injEq] at h
        exact point_some_congr h.1 h.2 _ _

instance : DecidableEq W.Point := fun P Q =>
  decidable_of_iff _ (point_eq_iff_coords P Q).symm

/-- Parse an uncompressed (0x04-prefixed, 97-byte) P-384 point, checking it
lies on the curve, as noble's `Point.fromBytes` does. -/
def decodePoint (W : WeierstrassCurve.Affine F) (b : Bytes) : Option W.Point :=
  if b.length = 97 ∧ b.getD 0 0 = 4 then
    let x : F := ((bytesToNatBE ((b.drop 1).take 48) : Nat) : F)
    let y : F := ((bytesToNatBE ((b.drop 49).take 48) : Nat) : F)
    if h : W.Nonsingular x y then some (Point.some h) else none
  else none

/-- Serialize a point in uncompressed form, `0x04 || x || y`; noble's
`toRawBytes(false)` throws on the point at infinity, hence `none`.
`coordBytes` is the fixed-width big-endian coordinate encoding (48 bytes
for P-384). -/
def serializePoint (coordBytes : F → Bytes) : W.Point → Option Bytes
  | Point.zero => none
  | @Point.some _ _ _ x y _ => some (4 :: (coordBytes x ++ coordBytes y))

/-- noble `p384.getSharedSecret(priv, pub)`: parse the peer point, multiply
by the private scalar, serialize uncompressed. -/
def getSharedSecret (W : WeierstrassCurve.Affine F) (coordBytes : F → Bytes)
    (priv pub : Bytes) : Option Bytes :=
  (decodePoint W pub).bind fun P => serializePoint coordBytes (ecSmul (bytesToNatBE priv) P)

end Curve

-- ==================== crypto.ts: constants and key encodings ====================

/-- AES_NONCE_LENGTH from src/engine/constants.ts. -/
def AES_NONCE_LENGTH : Nat := 12

/-- AES_KEY_LENGTH from src/engine/constants.ts. -/
def AES_KEY_LENGTH : Nat := 32

/-- PBKDF2_ITERATIONS from src/engine/constants.ts. -/
def PBKDF2_ITERATIONS : Nat := 100000

/-- HKDF_INFO from src/engine/constants.ts: the UTF-8 bytes of
"epoch-key-wrap". -/
def HKDF_INFO_BYTES : Bytes := [101, 112, 111, 99, 104, 45, 107, 101, 121, 45, 119, 114, 97, 112]

/-- SPKI header for a P-384 public key (crypto.ts SPKI_HEADER). -/
def SPKI_HEADER : Bytes :=
  [0x30, 0x76, 0x30, 0x10, 0x06, 0x07, 0x2a, 0x86, 0x48, 0xce, 0x3d, 0x02, 0x01,
   0x06, 0x05, 0x2b, 0x81, 0x04, 0x00, 0x22, 0x03, 0x62, 0x00]

/-- PKCS8 header for a P-384 private key (crypto.ts PKCS8_HEADER). -/
def PKCS8_HEADER : Bytes :=
  [0x30, 0x81, 0xb6, 0x02, 0x01, 0x00, 0x30, 0x10, 0x06, 0x07, 0x2a, 0x86, 0x48,
   0xce, 0x3d, 0x02, 0x01, 0x06, 0x05, 0x2b, 0x81, 0x04, 0x00, 0x22, 0x04, 0x81, 0x9e]

/-- crypto.ts `publicKeyToSPKI`. -/
def publicKeyToSPKI (rawPublicKey : Bytes) : Bytes := SPKI_HEADER ++ rawPublicKey

/-- crypto.ts `privateKeyToPKCS8`: wraps the 48-byte private key and 97-byte
public key in the fixed DER skeleton. -/
def privateKeyToPKCS8 (privateKey publicKey : Bytes) : Bytes :=
  PKCS8_HEADER ++
    ([0x30, 0x81, 0x9b, 0x02, 0x01, 0x01, 0x04, 0x30] ++ privateKey ++
      ([0xa1, 0x64, 0x03, 0x62, 0x00] ++ publicKey))

/-- crypto.ts `spkiToPublicKey`: slice off the fixed header. -/
def spkiToPublicKey (spki : Bytes) : Bytes := spki.drop SPKI_HEADER.length

/-- crypto.ts `pkcs8ToPrivateKey`: standard PKCS8 at offset 35, legacy app
layout at offset 32. -/
def pkcs8ToPrivateKey (pkcs8 : Bytes) : Bytes :=
  if 185 ≤ pkcs8.length ∧ pkcs8.getD 24 0 = 4 then (pkcs8.drop 35).take 48
  else (pkcs8.drop 32).take 48

-- ==================== crypto.ts: AES-GCM wrappers ====================

/-- crypto.ts `encryptAESGCM` (noble software path): AES-256-GCM with the
key and nonce as byte strings. -/
def encryptAESGCM (key plaintext nonce : Bytes) : Bytes :=
  gcmEncrypt (bytesToNatBE key) nonce plaintext

/-- crypto.ts `decryptAESGCM`: `none` models the thrown tag-mismatch error. -/
def decryptAESGCM (key ciphertext nonce : Bytes) : Option Bytes :=
  gcmDecrypt (bytesToNatBE key) nonce ciphertext

/-- The `EncryptedData` record returned by `aesGcmEncrypt` (base64 fields). -/
structure EncryptedData where
  ciphertext : Bytes
  nonce : Bytes
  deriving DecidableEq, Repr

/-- crypto.ts `aesGcmEncrypt(plaintext, epochKeyBase64)`: the internally
generated random nonce is passed explicitly; the plaintext argument is the
UTF-8 byte encoding of the message string. Fails (`none`) only if the key
is not valid base64. -/
def aesGcmEncrypt (plaintextBytes epochKeyBase64 nonce : Bytes) : Option EncryptedData :=
  (decodeB64 epochKeyBase64).map fun epochKey =>
    { ciphertext := encodeB64 (encryptAESGCM epochKey plaintextBytes nonce),
      nonce := encodeB64 nonce }

/-- crypto.ts `aesGcmDecrypt(ciphertextBase64, nonceBase64, epochKeyBase64)`:
returns the UTF-8 bytes of the decrypted string. -/
def aesGcmDecrypt (ciphertextBase64 nonceBase64 epochKeyBase64 : Bytes) : Option Bytes :=
  (decodeB64 ciphertextBase64).bind fun ciphertext =>
  (decodeB64 nonceBase64).bind fun nonce =>
  (decodeB64 epochKeyBase64).bind fun epochKey =>
  decryptAESGCM epochKey ciphertext nonce

-- ==================== crypto.ts: epoch key wrapping ====================

section Wrap

variable {F : Type} [Field F] [DecidableEq F]

/-- crypto.ts `deriveWrappingKey` (the pure-software noble path): ECDH
shared point, x-coordinate via `sharedSecret.slice(1, 49)`, then
HKDF-SHA256 with a 32-byte all-zero salt and the fixed info string. -/
def deriveWrappingKey (W : WeierstrassCurve.Affine F) (coordBytes : F → Bytes)
    (myPrivateKeyBytes peerPublicKeyBytes : Bytes) : Option Bytes :=
  (getSharedSecret W coordBytes myPrivateKeyBytes peerPublicKeyBytes).map fun sharedSecret =>
    hkdfSHA256 ((sharedSecret.drop 1).take 48) (List.replicate 32 0) HKDF_INFO_BYTES 32

/-- Modelled from the spec: crypto.ts `deriveWrappingKeyWebCrypto` calls the
platform WebCrypto API, whose code is not part of this repository. Per the
spec ("deriveBits ECDH 384 bits, then HKDF-SHA256 with the same zero salt
and same info") and the W3C WebCrypto ECDH semantics, `deriveBits` with 384
bits yields exactly the 48-byte big-endian x-coordinate of the ECDH shared
point of the keys imported from PKCS8/SPKI, failing on the point at
infinity; the result is fed to HKDF-SHA256 with the same parameters as the
software path. -/
def deriveWrappingKeyWebCrypto (W : WeierstrassCurve.Affine F) (coordBytes : F → Bytes)
    (myPrivateKeyPKCS8 peerPublicKeySPKI : Bytes) : Option Bytes :=
  (decodePoint W (spkiToPublicKey peerPublicKeySPKI)).bind fun P =>
    match ecSmul (bytesToNatBE (pkcs8ToPrivateKey myPrivateKeyPKCS8)) P with
    | WeierstrassCurve.Affine.Point.zero => none
    | @WeierstrassCurve.Affine.Point.some _ _ _ x _ _ =>
      some (hkdfSHA256 (coordBytes x) (List.replicate 32 0) HKDF_INFO_BYTES 32)

/-- crypto.ts `wrapEpochKey` (software path): derive the wrapping key from
the decoded identity keys, AES-GCM-encrypt the raw epoch key under a fresh
nonce (passed explicitly here), and return `base64(nonce || wrapped)`. -/
def wrapEpochKey (W : WeierstrassCurve.Affine F) (coordBytes : F → Bytes)
    (epochKeyBase64 myPrivateKeyBase64 peerPublicKeyBase64 nonce : Bytes) : Option Bytes :=
  (decodeB64 myPrivateKeyBase64).bind fun myPrivateKeyPKCS8 =>
  (decodeB64 peerPublicKeyBase64).bind fun peerPublicKeySPKI =>
  (deriveWrappingKey W coordBytes (pkcs8ToPrivateKey myPrivateKeyPKCS8)
      (spkiToPublicKey peerPublicKeySPKI)).bind fun wrapKey =>
  (decodeB64 epochKeyBase64).map fun epochKey =>
    encodeB64 (nonce ++ encryptAESGCM wrapKey epochKey nonce)

/-- crypto.ts `unwrapEpochKey` (software path): split the decoded blob at
AES_NONCE_LENGTH, derive the wrapping key from the decoded identity keys,
AES-GCM-decrypt, and return the raw key re-encoded in base64. -/
def unwrapEpochKey (W : WeierstrassCurve.Affine F) (coordBytes : F → Bytes)
    (wrappedKeyBase64 myPrivateKeyBase64 senderPublicKeyBase64 : Bytes) : Option Bytes :=
  (decodeB64 wrappedKeyBase64).bind fun wrappedData =>
  (decodeB64 myPrivateKeyBase64).bind fun myPrivateKeyPKCS8 =>
  (decodeB64 senderPublicKeyBase64).bind fun senderPublicKeySPKI =>
  (deriveWrappingKey W coordBytes (pkcs8ToPrivateKey myPrivateKeyPKCS8)
      (spkiToPublicKey senderPublicKeySPKI)).bind fun wrapKey =>
  (decryptAESGCM wrapKey (wrappedData.drop AES_NONCE_LENGTH)
      (wrappedData.take AES_NONCE_LENGTH)).map encodeB64

end Wrap

-- ==================== Wrapping-key derivation lemmas ====================

section WrapProofs

variable {F : Type} [Field F] [DecidableEq F]

open WeierstrassCurve.Affine

theorem x_slice (cx cy : Bytes) (h : cx.length = 48) :
    (((4 :: (cx ++ cy)).drop 1).take 48) = cx := by
  rw [List.drop_succ_cons, List.drop_zero, ← h, List.take_left]

/-- Value of `deriveWrappingKey` when the peer point parses and the shared
point is affine. -/
theorem deriveWrappingKey_some {W : WeierstrassCurve.Affine F} (coordBytes : F → Bytes)
    (hlen : ∀ x, (coordBytes x).length = 48) (priv pub : Bytes) (P : W.Point)
    {x y : F} (hQ : W.Nonsingular x y)
    (hdp : decodePoint W pub = some P)
    (hsm : ecSmul (bytesToNatBE priv) P = Point.some hQ) :
    deriveWrappingKey W coordBytes priv pub =
      some (hkdfSHA256 (coordBytes x) (List.replicate 32 0) HKDF_INFO_BYTES 32) := by
  unfold deriveWrappingKey getSharedSecret
  rw [hdp]
  simp only [Option.some_bind, hsm, serializePoint, Option.map_some']
  rw [x_slice _ _ (hlen x)]

/-- Claim C2 auxiliary: the two derivation paths agree on every input. -/
theorem deriveWrappingKey_agree (W : WeierstrassCurve.Affine F) (coordBytes : F → Bytes)
    (hlen : ∀ x, (coordBytes x).length = 48) (myPrivateKeyPKCS8 peerPublicKeySPKI : Bytes) :
    deriveWrappingKey W coordBytes (pkcs8ToPrivateKey myPrivateKeyPKCS8)
        (spkiToPublicKey peerPublicKeySPKI) =
      deriveWrappingKeyWebCrypto W coordBytes myPrivateKeyPKCS8 peerPublicKeySPKI := by
  unfold deriveWrappingKey deriveWrappingKeyWebCrypto getSharedSecret
  cases hdp : decodePoint W (spkiToPublicKey peerPublicKeySPKI) with
  | none => simp
  | some P =>
    simp only [Option.some_bind]
    cases hq : ecSmul (bytesToNatBE (pkcs8ToPrivateKey myPrivateKeyPKCS8)) P with
    | zero => simp [serializePoint]
    | @some x y h =>
      simp only [serializePoint, Option.map_some']
      rw [x_slice _ _ (hlen x)]

end WrapProofs

-- ==================== Claims C1 and C2 ====================

section ClaimsC1C2

variable {F : Type} [Field F] [DecidableEq F]

open WeierstrassCurve.Affine

/-- C1: wrap/unwrap round-trip. For every pair of valid identity key pairs
(private scalars `a`, `b` with PKCS8 blobs extracting to them, and SPKI
public blobs decoding to `a • G` and `b • G` on the curve) and every 32-byte
raw key `K`, unwrapping the blob produced by
`wrapEpochKey(K, A_priv, B_pub)` with the other side's keys,
`unwrapEpochKey(blob, B_priv, A_pub)`, returns exactly `K`; the proof goes
through the ECDH symmetry `a • (b • G) = b • (a • G)` of the shared point.
The hypothesis `(a * b) • G ≠ 0` holds for every actual P-384 key pair
because the group generated by the base point has prime order. -/
theorem claim_C1_wrap_unwrap_roundtrip
    (W : WeierstrassCurve.Affine F) (coordBytes : F → Bytes) (G : W.Point)
    (hlen : ∀ x, (coordBytes x).length = 48)
    (a b : Nat) (privA privB pubA pubB K nonce : Bytes)
    (hvA : ValidBytes privA) (hvB : ValidBytes privB)
    (hvPA : ValidBytes pubA) (hvPB : ValidBytes pubB)
    (hvK : ValidBytes K) (hvN : ValidBytes nonce)
    (hK32 : K.length = 32) (hN12 : nonce.length = 12)
    (ha : bytesToNatBE (pkcs8ToPrivateKey privA) = a)
    (hb : bytesToNatBE (pkcs8ToPrivateKey privB) = b)
    (hpa : decodePoint W (spkiToPublicKey pubA) = some (ecSmul a G))
    (hpb : decodePoint W (spkiToPublicKey pubB) = some (ecSmul b G))
    (hs : (a * b) • G ≠ 0) :
    (wrapEpochKey W coordBytes (encodeB64 K) (encodeB64 privA) (encodeB64 pubB) nonce).bind
      (fun blob => unwrapEpochKey W coordBytes blob (encodeB64 privB) (encodeB64 pubA)) =
      some (encodeB64 K) := by
  cases hP : ((a * b) • G : W.Point) with
  | zero => exact absurd hP hs
  | @some x y hQ =>
    have hsm1 : ecSmul (bytesToNatBE (pkcs8ToPrivateKey privA)) (ecSmul b G) = Point.some hQ := by
      rw [ha, ecSmul_eq, ecSmul_eq, smul_smul, hP]
    have hsm2 : ecSmul (bytesToNatBE (pkcs8ToPrivateKey privB)) (ecSmul a G) = Point.some hQ := by
      rw [hb, ecSmul_eq, ecSmul_eq, smul_smul, Nat.mul_comm, hP]
    have hdw1 := deriveWrappingKey_some coordBytes hlen (pkcs8ToPrivateKey privA)
      (spkiToPublicKey pubB) _ hQ hpb hsm1
    have hdw2 := deriveWrappingKey_some coordBytes hlen (pkcs8ToPrivateKey privB)
      (spkiToPublicKey pubA) _ hQ hpa hsm2
    have hvCT : ValidBytes (nonce ++ encryptAESGCM
        (hkdfSHA256 (coordBytes x) (List.replicate 32 0) HKDF_INFO_BYTES 32) K nonce) := by
      intro u hu
      rcases List.mem_append.mp hu with h | h
      · exact hvN u h
      · unfold encryptAESGCM gcmEncrypt at h
        rcases List.mem_append.mp h with h | h
        · exact ctrCrypt_valid _ _ _ hvK u h
        · exact natToBytesBE_valid _ _ u h
    simp only [wrapEpochKey, decodeB64_encodeB64 _ hvA, decodeB64_encodeB64 _ hvPB,
      decodeB64_encodeB64 _ hvK, Option.some_bind, hdw1, Option.map_some']
    simp only [unwrapEpochKey, decodeB64_encodeB64 _ hvCT, decodeB64_encodeB64 _ hvB,
      decodeB64_encodeB64 _ hvPA, Option.some_bind, hdw2]
    have htake : (nonce ++ encryptAESGCM
        (hkdfSHA256 (coordBytes x) (List.replicate 32 0) HKDF_INFO_BYTES 32) K nonce).take
          AES_NONCE_LENGTH = nonce := by
      rw [AES_NONCE_LENGTH, ← hN12, List.take_left]
    have hdrop : (nonce ++ encryptAESGCM
        (hkdfSHA256 (coordBytes x) (List.replicate 32 0) HKDF_INFO_BYTES 32) K nonce).drop
          AES_NONCE_LENGTH = encryptAESGCM
        (hkdfSHA256 (coordBytes x) (List.replicate 32 0) HKDF_INFO_BYTES 32) K nonce := by
      rw [AES_NONCE_LENGTH, ← hN12, List.drop_left]
    rw [htake, hdrop]
    rw [show decryptAESGCM (hkdfSHA256 (coordBytes x) (List.replicate 32 0) HKDF_INFO_BYTES 32)
        (encryptAESGCM (hkdfSHA256 (coordBytes x) (List.replicate 32 0) HKDF_INFO_BYTES 32) K nonce)
        nonce = some K from gcmDecrypt_gcmEncrypt _ _ _]
    rfl

/-- C2: the two wrapping-key derivation implementations agree. For every
private PKCS8 blob and public SPKI blob, the pure-software path (ECDH shared
point, 48-byte x-coordinate slice `sharedSecret.slice(1, 49)`, HKDF-SHA256
with 32-byte zero salt and info "epoch-key-wrap") equals the WebCrypto path
(deriveBits ECDH 384 bits = the x-coordinate, then the same HKDF), including
the failure cases (unparseable point, point at infinity). -/
theorem claim_C2_derive_paths_agree (W : WeierstrassCurve.Affine F) (coordBytes : F → Bytes)
    (hlen : ∀ x, (coordBytes x).length = 48) (myPrivateKeyPKCS8 peerPublicKeySPKI : Bytes) :
    deriveWrappingKey W coordBytes (pkcs8ToPrivateKey myPrivateKeyPKCS8)
        (spkiToPublicKey peerPublicKeySPKI) =
      deriveWrappingKeyWebCrypto W coordBytes myPrivateKeyPKCS8 peerPublicKeySPKI :=
  deriveWrappingKey_agree W coordBytes hlen myPrivateKeyPKCS8 peerPublicKeySPKI

end ClaimsC1C2

-- ==================== Test fixtures over GF(5) for the witnesses ====================

instance : Fact (Nat.Prime 5) := ⟨by norm_num⟩

/-- A small Weierstrass curve over GF(5) (y^2 = x^3 + 1) used to instantiate
the generic curve theorems in witnesses. -/
def testW : WeierstrassCurve.Affine (ZMod 5) := WeierstrassCurve.mk 0 0 0 0 1

/-- Coordinate encoding for the test curve: 48-byte big-endian, as for P-384. -/
def testCoordBytes (x : ZMod 5) : Bytes := natToBytesBE 48 x.val

/-- The point (0, 1) on the test curve. -/
def testG : testW.Point :=
  WeierstrassCurve.Affine.Point.some (show testW.Nonsingular 0 1 by decide)

/-- Raw uncompressed encoding of `testG`. -/
def testGRaw : Bytes := 4 :: (testCoordBytes 0 ++ testCoordBytes 1)

/-- A PKCS8 private-key blob for scalar 1 on the test curve. -/
def testPrivBlob : Bytes := privateKeyToPKCS8 (natToBytesBE 48 1) testGRaw

/-- An SPKI public-key blob for `testG`. -/
def testPubBlob : Bytes := publicKeyToSPKI testGRaw

set_option maxRecDepth 400000 in
/-- Witness for C1: the round-trip equation at concrete keys over GF(5),
scalars a = b = 1, K = 32 bytes encoding 7, nonce = 12 bytes encoding 3. -/
theorem claim_C1_witness :
    (wrapEpochKey testW testCoordBytes (encodeB64 (natToBytesBE 32 7)) (encodeB64 testPrivBlob)
        (encodeB64 testPubBlob) (natToBytesBE 12 3)).bind
      (fun blob => unwrapEpochKey testW testCoordBytes blob (encodeB64 testPrivBlob)
        (encodeB64 testPubBlob)) =
      some (encodeB64 (natToBytesBE 32 7)) :=
  claim_C1_wrap_unwrap_roundtrip testW testCoordBytes testG
    (fun x => natToBytesBE_length 48 x.val) 1 1 testPrivBlob testPrivBlob testPubBlob testPubBlob
    (natToBytesBE 32 7) (natToBytesBE 12 3)
    (by decide) (by decide) (by decide) (by decide)
    (natToBytesBE_valid _ _) (natToBytesBE_valid _ _)
    (natToBytesBE_length _ _) (natToBytesBE_length _ _)
    (by decide) (by decide) (by decide) (by decide)
    (by rw [show (1 * 1 : Nat) = 1 from rfl, one_nsmul]
        exact WeierstrassCurve.Affine.Point.some_ne_zero _)

/-- Witness for C2: path agreement at a concrete instantiation. -/
theorem claim_C2_witness :
    deriveWrappingKey testW testCoordBytes (pkcs8ToPrivateKey testPrivBlob)
        (spkiToPublicKey testPubBlob) =
      deriveWrappingKeyWebCrypto testW testCoordBytes testPrivBlob testPubBlob :=
  claim_C2_derive_paths_agree testW testCoordBytes
    (fun x => natToBytesBE_length 48 x.val) testPrivBlob testPubBlob

-- ==================== Claim C5: AEAD correctness ====================

theorem take_encryptAESGCM (key pt nonce : Bytes) :
    (encryptAESGCM key pt nonce).take pt.length =
      ctrCrypt (bytesToNatBE key) (j0Of nonce) pt := by
  unfold encryptAESGCM gcmEncrypt
  rw [← ctrCrypt_length (bytesToNatBE key) (j0Of nonce) pt, List.take_left]

theorem drop_encryptAESGCM (key pt nonce : Bytes) :
    (encryptAESGCM key pt nonce).drop pt.length =
      natToBytesBE 16 (gcmTag (bytesToNatBE key) (j0Of nonce)
        (ctrCrypt (bytesToNatBE key) (j0Of nonce) pt)) := by
  unfold encryptAESGCM gcmEncrypt
  rw [← ctrCrypt_length (bytesToNatBE key) (j0Of nonce) pt, List.drop_left]

/-- C5 (amended): AEAD behaviour of `aesGcmEncrypt` / `aesGcmDecrypt`.
(a) Round-trip: decrypting the output of `aesGcmEncrypt` under the same key
and nonce returns the original plaintext. (b) Fail-closed, all-or-nothing:
whenever decryption returns a plaintext, the stored 16-byte tag equals the
tag recomputed over the ciphertext body and the output is the full-length
CTR decryption — never a partial or truncated plaintext. (c) Any change to
the stored authentication tag (in particular any flipped tag bit) makes
decryption fail with an error. The original claim's further assertion that
decryption under a *different key* always fails is refuted by
`claim_C5_counterexample` (AES-GCM is not key-committing), and single-bit
changes to the ciphertext *body* are rejected exactly when they change the
recomputed GHASH tag, which holds for no key with a zero GHASH subkey —
a computational property outside the reach of this development. -/
theorem claim_C5_aead_roundtrip_and_fail_closed (key pt nonce : Bytes)
    (hvk : ValidBytes key) (hvp : ValidBytes pt) (hvn : ValidBytes nonce)
    (hk32 : key.length = 32) (hn12 : nonce.length = 12) :
    ((aesGcmEncrypt pt (encodeB64 key) nonce).bind
        (fun e => aesGcmDecrypt e.ciphertext e.nonce (encodeB64 key)) = some pt) ∧
    (∀ data out, decryptAESGCM key data nonce = some out →
      out.length = data.length - 16 ∧
        natToBytesBE 16 (gcmTag (bytesToNatBE key) (j0Of nonce)
          (data.take (data.length - 16))) = data.drop (data.length - 16)) ∧
    (∀ tagTweaked, tagTweaked.length = 16 →
      tagTweaked ≠ (encryptAESGCM key pt nonce).drop pt.length →
      decryptAESGCM key ((encryptAESGCM key pt nonce).take pt.length ++ tagTweaked) nonce =
        none) := by
  refine ⟨?_, ?_, ?_⟩
  · have hvct : ValidBytes (encryptAESGCM key pt nonce) := by
      intro u hu
      unfold encryptAESGCM gcmEncrypt at hu
      rcases List.mem_append.mp hu with h | h
      · exact ctrCrypt_valid _ _ _ hvp u h
      · exact natToBytesBE_valid _ _ u h
    simp only [aesGcmEncrypt, decodeB64_encodeB64 _ hvk, Option.map_some', Option.some_bind,
      aesGcmDecrypt, decodeB64_encodeB64 _ hvct, decodeB64_encodeB64 _ hvn]
    exact gcmDecrypt_gcmEncrypt _ _ _
  · intro data out h
    unfold decryptAESGCM gcmDecrypt at h
    by_cases hlen : data.length < 16
    · rw [if_pos hlen] at h; exact absurd h (by simp)
    · rw [if_neg hlen] at h
      by_cases htag : natToBytesBE 16 (gcmTag (bytesToNatBE key) (j0Of nonce)
          (data.take (data.length - 16))) = data.drop (data.length - 16)
      · rw [if_pos htag] at h
        refine ⟨?_, htag⟩
        have := Option.some.inj h
        rw [← this, ctrCrypt_length, List.length_take]
        omega
      · rw [if_neg htag] at h; exact absurd h (by simp)
  · intro tagTweaked hlen16 hne
    rw [take_encryptAESGCM, drop_encryptAESGCM] at *
    simp only [decryptAESGCM, gcmDecrypt]
    have hctlen : (ctrCrypt (bytesToNatBE key) (j0Of nonce) pt).length = pt.length :=
      ctrCrypt_length _ _ _
    have hl : (ctrCrypt (bytesToNatBE key) (j0Of nonce) pt ++ tagTweaked).length =
        pt.length + 16 := by
      rw [List.length_append, hctlen, hlen16]
    rw [hl, if_neg (by omega)]
    have hidx : pt.length + 16 - 16 = (ctrCrypt (bytesToNatBE key) (j0Of nonce) pt).length := by
      omega
    rw [hidx, List.take_left, List.drop_left]
    exact if_neg fun hcontra => hne hcontra.symm

/-- Witness for C5 (amended), round-trip part, at concrete inputs. -/
theorem claim_C5_witness :
    (aesGcmEncrypt [104, 105] (encodeB64 (List.replicate 32 0)) (List.replicate 12 0)).bind
        (fun e => aesGcmDecrypt e.ciphertext e.nonce (encodeB64 (List.replicate 32 0))) =
      some [104, 105] :=
  (claim_C5_aead_roundtrip_and_fail_closed (List.replicate 32 0) [104, 105]
    (List.replicate 12 0) (by decide) (by decide) (by decide) (by decide) (by decide)).1

set_option maxRecDepth 1000000 in
/-- Counterexample for C5 as stated: AES-GCM is not key-committing. The
16-byte plaintext below, encrypted under the all-zero 32-byte key with the
all-zero 12-byte nonce, yields a ciphertext+tag blob that *also* passes the
authentication check under the different key 00...01: decryption returns a
(garbage) plaintext instead of always failing. -/
theorem claim_C5_counterexample :
    (List.replicate 32 0 : Bytes) ≠ List.replicate 31 0 ++ [1] ∧
    aesGcmEncrypt [240, 169, 109, 149, 73, 32, 187, 49, 147, 116, 192, 115, 231, 200, 29, 17]
        (encodeB64 (List.replicate 32 0)) (List.replicate 12 0) =
      some { ciphertext := encodeB64 [62, 14, 45, 168, 4, 64, 208, 95, 148, 58, 5, 160, 93, 59,
               128, 9, 2, 136, 105, 89, 210, 103, 83, 174, 26, 26, 188, 219, 19, 172, 250, 171],
             nonce := encodeB64 (List.replicate 12 0) } ∧
    aesGcmDecrypt (encodeB64 [62, 14, 45, 168, 4, 64, 208, 95, 148, 58, 5, 160, 93, 59, 128, 9,
        2, 136, 105, 89, 210, 103, 83, 174, 26, 26, 188, 219, 19, 172, 250, 171])
      (encodeB64 (List.replicate 12 0)) (encodeB64 (List.replicate 31 0 ++ [1])) =
      some [103, 153, 64, 7, 204, 34, 155, 144, 196, 27, 68, 35, 159, 38, 13, 248] := by
  refine ⟨by decide, by decide, by decide⟩

-- ==================== Data model (types.ts) ====================

/-- A local chat row (types.ts `LocalChat`); usernames and timestamps are
modelled as naturals, message previews as byte strings. -/
structure LocalChat where
  chat_id : Nat
  with_user : Nat
  last_message : Option Bytes
  last_message_time : Option Nat
  unread_count : Nat
  deriving DecidableEq, Repr

/-- A local message row (types.ts `LocalMessage`). -/
structure LocalMessage where
  id : Nat
  chat_id : Nat
  sender_id : Nat
  epoch_id : Nat
  reply_id : Option Nat
  ciphertext : Bytes
  nonce : Bytes
  plaintext : Option Bytes
  created_at : Nat
  synced : Bool
  deriving DecidableEq, Repr

/-- A local epoch row (the `EpochData` record of the database adapters). -/
structure EpochData where
  epoch_id : Nat
  chat_id : Nat
  epoch_index : Nat
  wrapped_key : Bytes
  unwrapped_key : Option Bytes
  deriving DecidableEq, Repr

-- ==================== database.web.ts: the in-memory store ====================

/-- The web adapter's in-memory `memoryDb`: chats and epochs keyed by id,
messages keyed by chat id. -/
structure MemoryDb where
  chats : Nat → Option LocalChat
  messages : Nat → List LocalMessage
  epochs : Nat → Option EpochData

/-- The store after `initDatabase` (all maps empty). -/
def emptyDb : MemoryDb := ⟨fun _ => none, fun _ => [], fun _ => none⟩

/-- database.web.ts `upsertChat`. -/
def upsertChat (db : MemoryDb) (chat : LocalChat) : MemoryDb :=
  { db with chats := fun k => if k = chat.chat_id then some chat else db.chats k }

/-- database.web.ts `getChat`. -/
def getChat (db : MemoryDb) (chatId : Nat) : Option LocalChat := db.chats chatId

/-- database.web.ts `updateChatLastMessage` (mutates only an existing row). -/
def updateChatLastMessage (db : MemoryDb) (chatId : Nat) (lastMessage : Bytes)
    (lastMessageTime : Nat) : MemoryDb :=
  { db with chats := fun k =>
      if k = chatId then
        (db.chats k).map fun c =>
          { c with last_message := some lastMessage, last_message_time := some lastMessageTime }
      else db.chats k }

/-- database.web.ts `updateUnreadCount`. -/
def updateUnreadCount (db : MemoryDb) (chatId count : Nat) : MemoryDb :=
  { db with chats := fun k =>
      if k = chatId then (db.chats k).map fun c => { c with unread_count := count }
      else db.chats k }

/-- database.web.ts `clearUnreadCount`. -/
def clearUnreadCount (db : MemoryDb) (chatId : Nat) : MemoryDb :=
  updateUnreadCount db chatId 0

/-- The replace-first-or-push loop of database.web.ts `insertMessage`
(`findIndex` then in-place assignment, else `push`). -/
def upsertById : List LocalMessage → LocalMessage → List LocalMessage
  | [], m => [m]
  | x :: rest, m => if x.id = m.id then m :: rest else x :: upsertById rest m

/-- database.web.ts `insertMessage`. -/
def insertMessage (db : MemoryDb) (m : LocalMessage) : MemoryDb :=
  { db with messages := fun k =>
      if k = m.chat_id then upsertById (db.messages m.chat_id) m else db.messages k }

/-- database.web.ts `getLatestMessageId`: `none` when the chat has no
messages, else the maximum stored id. -/
def getLatestMessageId (db : MemoryDb) (chatId : Nat) : Option Nat :=
  match db.messages chatId with
  | [] => none
  | l => some ((l.map (fun m => m.id)).foldl max 0)

/-- database.web.ts `updateMessagePlaintext` (sets the plaintext of the row
with the given id; ids are unique across chats in every reachable store). -/
def updateMessagePlaintext (db : MemoryDb) (messageId : Nat) (pt : Bytes) : MemoryDb :=
  { db with messages := fun k =>
      (db.messages k).map fun m =>
        if m.id = messageId then { m with plaintext := some pt } else m }

/-- database.web.ts `upsertEpoch`: replaces the whole record;
`unwrappedKey ?? null` is the optional final argument. -/
def upsertEpoch (db : MemoryDb) (epochId chatId epochIndex : Nat) (wrappedKey : Bytes)
    (unwrappedKey : Option Bytes) : MemoryDb :=
  { db with epochs := fun k =>
      if k = epochId then some ⟨epochId, chatId, epochIndex, wrappedKey, unwrappedKey⟩
      else db.epochs k }

/-- database.web.ts `getEpoch`. -/
def getEpoch (db : MemoryDb) (epochId : Nat) : Option EpochData := db.epochs epochId

/-- database.web.ts `storeUnwrappedEpochKey` (updates only an existing row). -/
def storeUnwrappedEpochKey (db : MemoryDb) (epochId : Nat) (unwrappedKey : Bytes) : MemoryDb :=
  { db with epochs := fun i =>
      if i = epochId then (db.epochs i).map fun e => { e with unwrapped_key := some unwrappedKey }
      else db.epochs i }

/-- database.web.ts `clearChatData`. -/
def clearChatData (db : MemoryDb) (chatId : Nat) : MemoryDb :=
  { chats := fun k => if k = chatId then none else db.chats k,
    messages := fun k => if k = chatId then [] else db.messages k,
    epochs := fun i =>
      match db.epochs i with
      | some e => if e.chat_id = chatId then none else some e
      | none => none }

/-- database.web.ts `clearAllData`. -/
def clearAllData (_db : MemoryDb) : MemoryDb := emptyDb

-- ==================== database.native.ts: INSERT OR REPLACE ====================

/-- database.native.ts `insertMessage`: SQLite `INSERT OR REPLACE` into a
table with `id` as primary key — the conflicting row is deleted and the new
row inserted. -/
def insertMessageNative (table : List LocalMessage) (m : LocalMessage) : List LocalMessage :=
  (table.filter fun r => r.id != m.id) ++ [m]

/-- database.native.ts `upsertEpoch`: `INSERT OR REPLACE` keyed by
`epoch_id`, with `unwrappedKey ?? null` as the stored value. -/
def upsertEpochNative (table : List EpochData) (epochId chatId epochIndex : Nat)
    (wrappedKey : Bytes) (unwrappedKey : Option Bytes) : List EpochData :=
  (table.filter fun r => r.epoch_id != epochId) ++
    [⟨epochId, chatId, epochIndex, wrappedKey, unwrappedKey⟩]

-- ==================== ChatContext.tsx: reducer ====================

/-- The reducer's state (ChatContext.tsx `ChatState`). -/
structure ChatStateR where
  chats : List LocalChat
  currentChatId : Option Nat
  messages : List LocalMessage
  isLoadingChats : Bool
  isLoadingMessages : Bool
  isSending : Bool
  wsConnected : Bool
  deriving DecidableEq, Repr

/-- The partial chat payload of `UPDATE_CHAT` (`Partial<LocalChat>` with a
mandatory chat id; `none` fields are absent from the payload). -/
structure ChatPatch where
  chat_id : Nat
  last_message : Option Bytes
  last_message_time : Option Nat
  unread_count : Option Nat
  deriving DecidableEq, Repr

/-- Object-spread application of a `ChatPatch` to a chat row. -/
def applyPatch (c : LocalChat) (p : ChatPatch) : LocalChat :=
  { c with
    last_message := match p.last_message with
      | some v => some v
      | none => c.last_message,
    last_message_time := match p.last_message_time with
      | some v => some v
      | none => c.last_message_time,
    unread_count := match p.unread_count with
      | some v => v
      | none => c.unread_count }

/-- The reducer's action type (ChatContext.tsx `ChatAction`). -/
inductive ChatAction where
  | setChats (payload : List LocalChat)
  | setCurrentChat (payload : Option Nat)
  | setMessages (payload : List LocalMessage)
  | addMessage (payload : LocalMessage)
  | setLoadingChats (payload : Bool)
  | setLoadingMessages (payload : Bool)
  | setSending (payload : Bool)
  | updateChat (payload : ChatPatch)
  | setWsConnected (payload : Bool)
  deriving DecidableEq, Repr

/-- ChatContext.tsx `chatReducer`; `ADD_MESSAGE` deduplicates by id,
replacing an existing entry in place (`map`), else appending. -/
def chatReducer (state : ChatStateR) (action : ChatAction) : ChatStateR :=
  match action with
  | ChatAction.setChats l => { state with chats := l }
  | ChatAction.setCurrentChat c => { state with currentChatId := c, messages := [] }
  | ChatAction.setMessages l => { state with messages := l }
  | ChatAction.addMessage m =>
    if state.messages.any fun x => x.id == m.id then
      { state with messages := state.messages.map fun x => if x.id = m.id then m else x }
    else { state with messages := state.messages ++ [m] }
  | ChatAction.setLoadingChats b => { state with isLoadingChats := b }
  | ChatAction.setLoadingMessages b => { state with isLoadingMessages := b }
  | ChatAction.setSending b => { state with isSending := b }
  | ChatAction.updateChat p =>
    { state with chats := state.chats.map fun c =>
        if c.chat_id = p.chat_id then applyPatch c p else c }
  | ChatAction.setWsConnected b => { state with wsConnected := b }

-- ==================== ChatContext.tsx: epoch key resolution ====================

/-- Environment of the epoch-key helpers: the identity private key from the
secure store, the `getPublicKey` API call (`none` models a thrown error) and
the `unwrapEpochKey` crypto call (`none` models a thrown error: missing
identity key, corrupted blob, tag mismatch). -/
structure EpochResolveEnv where
  identityPrivateKey : Option Bytes
  fetchPeerKey : Nat → Option Bytes
  unwrap : Bytes → Bytes → Bytes → Option Bytes

/-- ChatContext.tsx `unwrapAndCacheEpochKey`: every failure is caught and
becomes `null`; on success the raw key is cached via
`storeUnwrappedEpochKey` and returned. -/
def unwrapAndCacheEpochKey (env : EpochResolveEnv) (db : MemoryDb)
    (epochId chatId : Nat) (wrappedKey : Bytes) : Option Bytes × MemoryDb :=
  match env.identityPrivateKey with
  | none => (none, db)
  | some privKey =>
    match getChat db chatId with
    | none => (none, db)
    | some chatData =>
      match env.fetchPeerKey chatData.with_user with
      | none => (none, db)
      | some peerKey =>
        match env.unwrap wrappedKey privKey peerKey with
        | none => (none, db)
        | some epochKeyBase64 =>
          (some epochKeyBase64, storeUnwrappedEpochKey db epochId epochKeyBase64)

/-- ChatContext.tsx `getEpochKey`: return the cached raw key if present,
else unwrap and cache; `none` when the epoch record is unknown. -/
def getEpochKey (env : EpochResolveEnv) (db : MemoryDb) (epochId chatId : Nat) :
    Option Bytes × MemoryDb :=
  match getEpoch db epochId with
  | none => (none, db)
  | some epochData =>
    match epochData.unwrapped_key with
    | some k => (some k, db)
    | none => unwrapAndCacheEpochKey env db epochId chatId epochData.wrapped_key

-- ==================== ChatContext.tsx: rate-limited epoch creation ====================

/-- An `ApiError` as thrown by the api service: HTTP status plus whether the
parsed error message contains "throttled". -/
structure ApiError where
  status : Nat
  throttledMessage : Bool
  deriving DecidableEq, Repr

/-- The epoch-creation request body: `{ wrapped_key_a, wrapped_key_b }`. -/
structure EpochCreateRequest where
  wrapped_key_a : Bytes
  wrapped_key_b : Bytes
  deriving DecidableEq, Repr

/-- The epoch-creation response. -/
structure EpochResponse where
  epoch_id : Nat
  epoch_index : Nat
  deriving DecidableEq, Repr

/-- The throttle signal tested by sendMessage:
`err?.status === 429 || err?.message?.includes("throttled")`. -/
def isThrottle (e : ApiError) : Prop := e.status = 429 ∨ e.throttledMessage = true

instance (e : ApiError) : Decidable (isThrottle e) := by
  unfold isThrottle; infer_instance

/-- The epoch-creation block of ChatContext.tsx `sendMessage` (the
`try apiCreateEpoch … catch` with one fixed 5500 ms wait-and-retry on a
throttle signal). `backend n` is the outcome of the (n+1)-th attempt.
Returns the surfaced outcome, the list of request bodies actually sent, and
the total milliseconds waited. -/
def createEpochWithRetry (backend : Nat → Except ApiError EpochResponse)
    (wrappedKey : Bytes) : Except ApiError EpochResponse × List EpochCreateRequest × Nat :=
  let payload : EpochCreateRequest := ⟨wrappedKey, wrappedKey⟩
  match backend 0 with
  | Except.ok r => (Except.ok r, [payload], 0)
  | Except.error e =>
    if isThrottle e then
      match backend 1 with
      | Except.ok r => (Except.ok r, [payload, payload], 5500)
      | Except.error e2 => (Except.error e2, [payload, payload], 5500)
    else (Except.error e, [payload], 0)

-- ==================== ChatContext.tsx: watermark-incremental sync ====================

/-- A message as served by the backend (types.ts `Message`). -/
structure ServerMessage where
  id : Nat
  sender_id : Nat
  epoch_id : Nat
  reply_id : Option Nat
  ciphertext : Bytes
  nonce : Bytes
  created_at : Nat
  deriving DecidableEq, Repr

/-- The query string of the api service's `fetchChat(chatId, beforeId, limit)`:
`/chat/fetch/{chatId}?limit={limit}` plus `&before_id={beforeId}` when given. -/
structure ChatFetchRequest where
  chat_id : Nat
  before_id : Option Nat
  limit : Nat
  deriving DecidableEq, Repr

/-- The backend request issued by the REST branch of ChatContext.tsx
`loadMessages`: `apiFetchChat(chatId, fetchBeforeId)` with the default
limit 50 — the watermark is not part of the query. -/
def loadMessagesFetchRequest (_db : MemoryDb) (chatId : Nat) (beforeId : Option Nat) :
    ChatFetchRequest :=
  ⟨chatId, beforeId, 50⟩

/-- The watermark-and-filter step of `loadMessages`: `afterId` is the local
watermark (only on non-paginated passes), and only response messages with
`id > afterId` are processed further (decrypted and persisted). Returns the
watermark used and the messages to ingest. -/
def loadMessagesPlan (db : MemoryDb) (chatId : Nat) (beforeId : Option Nat)
    (response : List ServerMessage) : Option Nat × List ServerMessage :=
  let afterId := match beforeId with
    | none => getLatestMessageId db chatId
    | some _ => none
  let newMessages := match afterId with
    | some a => response.filter fun m => a < m.id
    | none => response
  (afterId, newMessages)

-- ==================== api service: authenticated requests and 401 purge ====================

/-- Client-side auth state touched by the api service's 401 handler. -/
structure AuthState where
  db : MemoryDb
  authToken : Option Bytes
  currentUser : Option Nat

/-- A request header as assembled by the api service `request`. -/
inductive ReqHeader where
  | contentType
  | authorization (token : Bytes)
  | deviceId (d : Nat)
  deriving DecidableEq, Repr

/-- Headers of `request`: Content-Type always; for authenticated requests
the bearer token (when a token is stored) and the per-install device id. -/
def requestHeaders (token : Option Bytes) (deviceId : Nat) (requiresAuth : Bool) :
    List ReqHeader :=
  [ReqHeader.contentType] ++
    (if requiresAuth then
      (match token with
        | some t => [ReqHeader.authorization t]
        | none => []) ++ [ReqHeader.deviceId deviceId]
    else [])

/-- An HTTP response; `fetch`'s `response.ok` is status 200..299. -/
structure HttpResponse where
  status : Nat
  body : Bytes
  deriving DecidableEq, Repr

/-- The `response.ok` predicate of the Fetch API. -/
def respOk (status : Nat) : Bool := 200 ≤ status && status < 300

/-- The api service `request`: build headers, and on a non-ok response throw
an `ApiError`; on a 401 to an authenticated request, first purge the local
database, the stored token and the current user. `throttledFlag` abstracts
whether the parsed error body mentions "throttled". Returns the outcome,
the auth state after the call, and the headers sent. -/
def request (st : AuthState) (deviceId : Nat) (requiresAuth : Bool)
    (resp : HttpResponse) (throttledFlag : Bool) :
    Except ApiError Bytes × AuthState × List ReqHeader :=
  let headers := requestHeaders st.authToken deviceId requiresAuth
  if respOk resp.status then (Except.ok resp.body, st, headers)
  else if resp.status = 401 ∧ requiresAuth = true then
    (Except.error ⟨resp.status, throttledFlag⟩,
      ⟨clearAllData st.db, none, none⟩, headers)
  else (Except.error ⟨resp.status, throttledFlag⟩, st, headers)

-- ==================== Claim C3: rate-limited epoch creation ====================

/-- C3: rate-limited epoch creation retries exactly once. When the first
`apiCreateEpoch` call fails with a throttle signal (status 429 or a message
containing "throttled"), `sendMessage` waits the fixed 5500 ms cooldown and
retries exactly once with the same wrapped key (both request bodies carry
the identical payload); the second outcome, success or failure, is
surfaced as is. A first failure without a throttle signal is surfaced
immediately with no retry and no wait. -/
theorem claim_C3_throttle_retry_once (backend : Nat → Except ApiError EpochResponse)
    (wrappedKey : Bytes) :
    (∀ r, backend 0 = Except.ok r →
      createEpochWithRetry backend wrappedKey =
        (Except.ok r, [⟨wrappedKey, wrappedKey⟩], 0)) ∧
    (∀ e, backend 0 = Except.error e → isThrottle e →
      createEpochWithRetry backend wrappedKey =
        (backend 1, [⟨wrappedKey, wrappedKey⟩, ⟨wrappedKey, wrappedKey⟩], 5500)) ∧
    (∀ e, backend 0 = Except.error e → ¬ isThrottle e →
      createEpochWithRetry backend wrappedKey =
        (Except.error e, [⟨wrappedKey, wrappedKey⟩], 0)) := by
  refine ⟨?_, ?_, ?_⟩
  · intro r h
    simp [createEpochWithRetry, h]
  · intro e h ht
    simp only [createEpochWithRetry, h, if_pos ht]
    cases backend 1 <;> rfl
  · intro e h ht
    simp [createEpochWithRetry, h, if_neg ht]

-- ==================== Claim C4: cache-first, non-fatal epoch resolution ====================

theorem getEpoch_storeUnwrappedEpochKey (db : MemoryDb) (eid : Nat) (k : Bytes) :
    getEpoch (storeUnwrappedEpochKey db eid k) eid =
      (getEpoch db eid).map fun e => { e with unwrapped_key := some k } := by
  simp [getEpoch, storeUnwrappedEpochKey]

theorem unwrapAndCache_none_db (env : EpochResolveEnv) (db : MemoryDb)
    (eid cid : Nat) (wk : Bytes) (h : (unwrapAndCacheEpochKey env db eid cid wk).1 = none) :
    (unwrapAndCacheEpochKey env db eid cid wk).2 = db := by
  rcases hp : env.identityPrivateKey with _ | priv
  · simp [unwrapAndCacheEpochKey, hp]
  · rcases hc : getChat db cid with _ | chatData
    · simp [unwrapAndCacheEpochKey, hp, hc]
    · rcases hk : env.fetchPeerKey chatData.with_user with _ | peerKey
      · simp [unwrapAndCacheEpochKey, hp, hc, hk]
      · rcases hu : env.unwrap wk priv peerKey with _ | key
        · simp [unwrapAndCacheEpochKey, hp, hc, hk, hu]
        · simp [unwrapAndCacheEpochKey, hp, hc, hk, hu] at h

theorem unwrapAndCache_some_db (env : EpochResolveEnv) (db : MemoryDb)
    (eid cid : Nat) (wk : Bytes) (k : Bytes)
    (h : (unwrapAndCacheEpochKey env db eid cid wk).1 = some k) :
    (unwrapAndCacheEpochKey env db eid cid wk).2 = storeUnwrappedEpochKey db eid k := by
  rcases hp : env.identityPrivateKey with _ | priv
  · simp [unwrapAndCacheEpochKey, hp] at h
  · rcases hc : getChat db cid with _ | chatData
    · simp [unwrapAndCacheEpochKey, hp, hc] at h
    · rcases hk : env.fetchPeerKey chatData.with_user with _ | peerKey
      · simp [unwrapAndCacheEpochKey, hp, hc, hk] at h
      · rcases hu : env.unwrap wk priv peerKey with _ | key
        · simp [unwrapAndCacheEpochKey, hp, hc, hk, hu] at h
        · simp only [unwrapAndCacheEpochKey, hp, hc, hk, hu] at h ⊢
          rw [Option.some.inj h]

/-- C4: epoch-key resolution is cache-first and non-fatal on failure.
(a) If the epoch record holds a cached raw key, `getEpochKey` returns it
with the store untouched (no re-derivation). (b) If the record exists
without a cached key, resolution proceeds by unwrapping the stored wrapped
blob. (c) Every failure — missing epoch record, missing identity key,
failing peer-key fetch, failing unwrap — yields `none` (never a thrown
error) and leaves the store unchanged, so the affected message stays
ciphertext-only. (d) After any successful resolution, a second call
returns the same key from the cache with the store unchanged. -/
theorem claim_C4_epoch_key_resolution (env : EpochResolveEnv) (db : MemoryDb)
    (epochId chatId : Nat) :
    (∀ e k, getEpoch db epochId = some e → e.unwrapped_key = some k →
      getEpochKey env db epochId chatId = (some k, db)) ∧
    (∀ e, getEpoch db epochId = some e → e.unwrapped_key = none →
      getEpochKey env db epochId chatId =
        unwrapAndCacheEpochKey env db epochId chatId e.wrapped_key) ∧
    ((getEpochKey env db epochId chatId).1 = none →
      (getEpochKey env db epochId chatId).2 = db) ∧
    (∀ k, (getEpochKey env db epochId chatId).1 = some k →
      getEpochKey env (getEpochKey env db epochId chatId).2 epochId chatId =
        (some k, (getEpochKey env db epochId chatId).2)) := by
  refine ⟨?_, ?_, ?_, ?_⟩
  · intro e k he hk
    simp [getEpochKey, he, hk]
  · intro e he hk
    simp [getEpochKey, he, hk]
  · intro h
    rcases he : getEpoch db epochId with _ | e
    · simp [getEpochKey, he]
    · rcases hk : e.unwrapped_key with _ | k
      · have hstep : getEpochKey env db epochId chatId =
            unwrapAndCacheEpochKey env db epochId chatId e.wrapped_key := by
          simp [getEpochKey, he, hk]
        rw [hstep] at h ⊢
        exact unwrapAndCache_none_db env db epochId chatId e.wrapped_key h
      · simp [getEpochKey, he, hk]
  · intro k h
    rcases he : getEpoch db epochId with _ | e
    · rw [show getEpochKey env db epochId chatId = (none, db) from by simp [getEpochKey, he]] at h
      simp at h
    rcases hk : e.unwrapped_key with _ | k0
    · have hstep : getEpochKey env db epochId chatId =
          unwrapAndCacheEpochKey env db epochId chatId e.wrapped_key := by
        simp [getEpochKey, he, hk]
      rw [hstep] at h ⊢
      have hdb2 := unwrapAndCache_some_db env db epochId chatId e.wrapped_key k h
      rw [hdb2]
      have hget : getEpoch (storeUnwrappedEpochKey db epochId k) epochId =
          some { e with unwrapped_key := some k } := by
        rw [getEpoch_storeUnwrappedEpochKey, he]
        rfl
      simp [getEpochKey, hget]
    · have hstep : getEpochKey env db epochId chatId = (some k0, db) := by
        simp [getEpochKey, he, hk]
      rw [hstep] at h ⊢
      simp only at h
      rw [← Option.some.inj h]
      simp [getEpochKey, he, hk]

-- ==================== Dedup lemmas for insertMessage / chatReducer ====================

theorem upsertById_mem (msgs : List LocalMessage) (m : LocalMessage) :
    m ∈ upsertById msgs m := by
  induction msgs with
  | nil => simp [upsertById]
  | cons x rest ih =>
    by_cases h : x.id = m.id
    · simp [upsertById, h]
    · simp [upsertById, h, ih]

theorem upsertById_ids_sub (msgs : List LocalMessage) (m : LocalMessage) :
    ∀ y ∈ (upsertById msgs m).map (fun x => x.id),
      y = m.id ∨ y ∈ msgs.map (fun x => x.id) := by
  induction msgs with
  | nil => simp [upsertById]
  | cons x rest ih =>
    intro y hy
    by_cases h : x.id = m.id
    · simp only [upsertById, if_pos h, List.map_cons, List.mem_cons] at hy ⊢
      tauto
    · simp only [upsertById, if_neg h, List.map_cons, List.mem_cons] at hy ⊢
      rcases hy with hy | hy
      · tauto
      · rcases ih y hy with h1 | h1 <;> tauto

theorem upsertById_nodup (msgs : List LocalMessage) (m : LocalMessage)
    (h : (msgs.map fun x => x.id).Nodup) :
    ((upsertById msgs m).map fun x => x.id).Nodup := by
  induction msgs with
  | nil => simp [upsertById]
  | cons x rest ih =>
    simp only [List.map_cons, List.nodup_cons] at h
    by_cases hx : x.id = m.id
    · simp only [upsertById, if_pos hx, List.map_cons, List.nodup_cons]
      exact ⟨hx ▸ h.1, h.2⟩
    · simp only [upsertById, if_neg hx, List.map_cons, List.nodup_cons]
      refine ⟨fun hcon => ?_, ih h.2⟩
      rcases upsertById_ids_sub rest m _ hcon with h1 | h1
      · exact hx h1
      · exact h.1 h1

theorem upsertById_length_of_mem (msgs : List LocalMessage) (m : LocalMessage)
    (h : m.id ∈ msgs.map fun x => x.id) :
    (upsertById msgs m).length = msgs.length := by
  induction msgs with
  | nil => simp at h
  | cons x rest ih =>
    by_cases hx : x.id = m.id
    · simp [upsertById, hx]
    · simp only [List.map_cons, List.mem_cons] at h
      rcases h with h | h
      · exact absurd h.symm hx
      · simp [upsertById, hx, ih h]

theorem upsertById_unique (msgs : List LocalMessage) (m : LocalMessage)
    (hnd : (msgs.map fun x => x.id).Nodup) :
    ∀ x ∈ upsertById msgs m, x.id = m.id → x = m := by
  induction msgs with
  | nil =>
    intro x hx _
    simpa [upsertById] using hx
  | cons y rest ih =>
    simp only [List.map_cons, List.nodup_cons] at hnd
    intro x hx hid
    by_cases hy : y.id = m.id
    · simp only [upsertById, if_pos hy, List.mem_cons] at hx
      rcases hx with rfl | hx
      · rfl
      · have hxid : x.id ∈ rest.map (fun z => z.id) := List.mem_map_of_mem _ hx
        rw [hid, ← hy] at hxid
        exact absurd hxid hnd.1
    · simp only [upsertById, if_neg hy, List.mem_cons] at hx
      rcases hx with rfl | hx
      · exact absurd hid hy
      · exact ih hnd.2 x hx hid

theorem filter_ne_id_not_mem (table : List LocalMessage) (m : LocalMessage) :
    m.id ∉ (table.filter fun r => r.id != m.id).map (fun x => x.id) := by
  intro h
  obtain ⟨r, hr, hid⟩ := List.mem_map.mp h
  have := List.of_mem_filter hr
  simp [hid] at this

theorem insertMessageNative_nodup (table : List LocalMessage) (m : LocalMessage)
    (h : (table.map fun x => x.id).Nodup) :
    ((insertMessageNative table m).map fun x => x.id).Nodup := by
  unfold insertMessageNative
  rw [List.map_append, List.nodup_append]
  refine ⟨?_, by simp, ?_⟩
  · exact ((List.filter_sublist table).map (fun x => x.id)).nodup h
  · intro y hy
    simp only [List.map_cons, List.map_nil, List.mem_singleton]
    intro hcon
    exact filter_ne_id_not_mem table m (hcon ▸ hy)

theorem insertMessageNative_unique (table : List LocalMessage) (m : LocalMessage) :
    ∀ x ∈ insertMessageNative table m, x.id = m.id → x = m := by
  intro x hx hid
  unfold insertMessageNative at hx
  rcases List.mem_append.mp hx with h | h
  · have := List.of_mem_filter h
    simp [hid] at this
  · simpa using h

theorem filter_ne_id_length (table : List LocalMessage) (m : LocalMessage)
    (hnd : (table.map fun x => x.id).Nodup) (hmem : m.id ∈ table.map fun x => x.id) :
    (table.filter fun r => r.id != m.id).length + 1 = table.length := by
  induction table with
  | nil => simp at hmem
  | cons x rest ih =>
    simp only [List.map_cons, List.nodup_cons] at hnd
    by_cases hx : x.id = m.id
    · have hnomem : ∀ r ∈ rest, (r.id != m.id) = true := by
        intro r hr
        have : r.id ≠ m.id := fun hcon =>
          hnd.1 (hx ▸ hcon ▸ List.mem_map_of_mem (fun z => z.id) hr)
        simpa using this
      rw [List.filter_cons_of_neg (by simp [hx]), List.filter_eq_self.mpr hnomem]
      simp
    · simp only [List.map_cons, List.mem_cons] at hmem
      rcases hmem with hmem | hmem
      · exact absurd hmem.symm hx
      · rw [List.filter_cons_of_pos (by simpa using hx)]
        have := ih hnd.2 hmem
        simp only [List.length_cons]
        omega

theorem insertMessageNative_length (table : List LocalMessage) (m : LocalMessage)
    (hnd : (table.map fun x => x.id).Nodup) (hmem : m.id ∈ table.map fun x => x.id) :
    (insertMessageNative table m).length = table.length := by
  unfold insertMessageNative
  rw [List.length_append, ← filter_ne_id_length table m hnd hmem]
  simp

theorem reducer_replace_ids (msgs : List LocalMessage) (m : LocalMessage) :
    ((msgs.map fun x => if x.id = m.id then m else x).map fun x => x.id) =
      msgs.map fun x => x.id := by
  rw [List.map_map]
  apply List.map_congr_left
  intro x _
  by_cases h : x.id = m.id
  · simp [h]
  · simp [h]

theorem any_id_iff (l : List LocalMessage) (i : Nat) :
    (l.any fun x => x.id == i) = true ↔ i ∈ l.map fun x => x.id := by
  simp only [List.any_eq_true, beq_iff_eq, List.mem_map]

-- ==================== Claims C6 and C10 ====================

/-- C6: deduplication. Under the invariant that timeline message ids are
unique, dispatching `ADD_MESSAGE` for a message keeps the ids unique and
leaves exactly one row with the new id; when the id is already present, the
entry is replaced in place (list length unchanged) rather than appended.
Likewise, persisting through the web adapter's `insertMessage` keeps the
stored ids unique, stores the new record, and any stored row with that id
is the new record — so a message delivered by both REST and push collapses
to one timeline row. -/
theorem claim_C6_deduplication (state : ChatStateR) (m : LocalMessage) (db : MemoryDb)
    (hs : (state.messages.map fun x => x.id).Nodup)
    (hdb : ((db.messages m.chat_id).map fun x => x.id).Nodup) :
    (((chatReducer state (ChatAction.addMessage m)).messages.map fun x => x.id).Nodup) ∧
    (((chatReducer state (ChatAction.addMessage m)).messages.map fun x => x.id).count m.id
      = 1) ∧
    (m.id ∈ state.messages.map (fun x => x.id) →
      (chatReducer state (ChatAction.addMessage m)).messages.length =
        state.messages.length) ∧
    ((((insertMessage db m).messages m.chat_id).map fun x => x.id).Nodup) ∧
    (m ∈ (insertMessage db m).messages m.chat_id) ∧
    (∀ x ∈ (insertMessage db m).messages m.chat_id, x.id = m.id → x = m) := by
  have hins : (insertMessage db m).messages m.chat_id =
      upsertById (db.messages m.chat_id) m := by
    simp [insertMessage]
  by_cases hmem : m.id ∈ state.messages.map fun x => x.id
  · have hany : (state.messages.any fun x => x.id == m.id) = true :=
      (any_id_iff _ _).mpr hmem
    have hred : (chatReducer state (ChatAction.addMessage m)).messages =
        state.messages.map fun x => if x.id = m.id then m else x := by
      simp [chatReducer, hany]
    refine ⟨?_, ?_, ?_, ?_, ?_, ?_⟩
    · rw [hred, reducer_replace_ids]; exact hs
    · rw [hred, reducer_replace_ids]
      exact List.count_eq_one_of_mem hs hmem
    · intro _
      rw [hred, List.length_map]
    · rw [hins]; exact upsertById_nodup _ _ hdb
    · rw [hins]; exact upsertById_mem _ _
    · rw [hins]; exact upsertById_unique _ _ hdb
  · have hany : (state.messages.any fun x => x.id == m.id) = false := by
      rcases h : state.messages.any fun x => x.id == m.id
      · rfl
      · exact absurd ((any_id_iff _ _).mp h) hmem
    have hred : (chatReducer state (ChatAction.addMessage m)).messages =
        state.messages ++ [m] := by
      simp [chatReducer, hany]
    refine ⟨?_, ?_, ?_, ?_, ?_, ?_⟩
    · rw [hred, List.map_append, List.nodup_append]
      refine ⟨hs, by simp, ?_⟩
      intro y hy
      simp only [List.map_cons, List.map_nil, List.mem_singleton]
      intro hcon
      exact hmem (hcon ▸ hy)
    · rw [hred, List.map_append, List.count_append]
      rw [List.count_eq_zero_of_not_mem hmem]
      simp
    · intro hcon
      exact absurd hcon hmem
    · rw [hins]; exact upsertById_nodup _ _ hdb
    · rw [hins]; exact upsertById_mem _ _
    · rw [hins]; exact upsertById_unique _ _ hdb

/-- Witness for C6 at a concrete state: the ids stay unique after a
duplicate delivery of message id 2. -/
theorem claim_C6_witness :
    (((chatReducer ⟨[], none, [⟨2, 1, 1, 1, none, [], [], none, 2, true⟩], false, false,
        false, false⟩
      (ChatAction.addMessage ⟨2, 1, 1, 1, none, [7], [8], none, 2, true⟩)).messages.map
        fun x => x.id).Nodup) :=
  (claim_C6_deduplication
    ⟨[], none, [⟨2, 1, 1, 1, none, [], [], none, 2, true⟩], false, false, false, false⟩
    ⟨2, 1, 1, 1, none, [7], [8], none, 2, true⟩ emptyDb (by decide) (by decide)).1

/-- C10 (implicit): `insertMessage` is an upsert keyed by message id. Under
unique stored ids, inserting keeps ids unique in both adapters; the new
record is stored; any stored row carrying the new id is the new record
(every field replaced); and when the id already exists no row is added
(the length is unchanged) — in the web (in-memory, replace-or-push) and
native (SQLite INSERT OR REPLACE) implementations alike. -/
theorem claim_C10_insert_is_upsert (db : MemoryDb) (m : LocalMessage)
    (table : List LocalMessage)
    (hdb : ((db.messages m.chat_id).map fun x => x.id).Nodup)
    (ht : (table.map fun x => x.id).Nodup) :
    ((((insertMessage db m).messages m.chat_id).map fun x => x.id).Nodup) ∧
    (m ∈ (insertMessage db m).messages m.chat_id) ∧
    (∀ x ∈ (insertMessage db m).messages m.chat_id, x.id = m.id → x = m) ∧
    (m.id ∈ (db.messages m.chat_id).map (fun x => x.id) →
      ((insertMessage db m).messages m.chat_id).length =
        (db.messages m.chat_id).length) ∧
    (∀ k, k ≠ m.chat_id → (insertMessage db m).messages k = db.messages k) ∧
    (((insertMessageNative table m).map fun x => x.id).Nodup) ∧
    (m ∈ insertMessageNative table m) ∧
    (∀ x ∈ insertMessageNative table m, x.id = m.id → x = m) ∧
    (m.id ∈ table.map (fun x => x.id) →
      (insertMessageNative table m).length = table.length) := by
  have hins : (insertMessage db m).messages m.chat_id =
      upsertById (db.messages m.chat_id) m := by
    simp [insertMessage]
  refine ⟨?_, ?_, ?_, ?_, ?_, ?_, ?_, ?_, ?_⟩
  · rw [hins]; exact upsertById_nodup _ _ hdb
  · rw [hins]; exact upsertById_mem _ _
  · rw [hins]; exact upsertById_unique _ _ hdb
  · intro hmem
    rw [hins]; exact upsertById_length_of_mem _ _ hmem
  · intro k hk
    simp [insertMessage, hk]
  · exact insertMessageNative_nodup _ _ ht
  · simp [insertMessageNative]
  · exact insertMessageNative_unique _ _
  · intro hmem
    exact insertMessageNative_length _ _ ht hmem

/-- A fixed message record (id 3, ciphertext only) used in witnesses. -/
def m3a : LocalMessage := ⟨3, 1, 1, 1, none, [1], [2], none, 5, true⟩

/-- A second record with the same id 3 and different fields. -/
def m3b : LocalMessage := ⟨3, 1, 2, 1, some 1, [9], [8], some [104], 6, false⟩

/-- Witness for C10 at concrete stores: re-inserting id 3 replaces the row
in both adapters. -/
theorem claim_C10_witness :
    m3b ∈ (insertMessage (insertMessage emptyDb m3a) m3b).messages 1 ∧
    m3b ∈ insertMessageNative [m3a] m3b := by
  have h := claim_C10_insert_is_upsert (insertMessage emptyDb m3a) m3b [m3a]
    (by decide) (by decide)
  exact ⟨h.2.1, h.2.2.2.2.2.2.1⟩

-- ==================== Claim C7: watermark-incremental sync ====================

theorem foldl_max_le_init (l : List Nat) (init : Nat) : init ≤ l.foldl max init := by
  induction l generalizing init with
  | nil => exact Nat.le_refl _
  | cons x xs ih => exact Nat.le_trans (Nat.le_max_left init x) (ih (max init x))

theorem mem_le_foldl_max (l : List Nat) : ∀ init a : Nat, a ∈ l →
    a ≤ l.foldl max init := by
  induction l with
  | nil => intro init a h; simp at h
  | cons x xs ih =>
    intro init a h
    rcases List.mem_cons.mp h with rfl | h
    · exact Nat.le_trans (Nat.le_max_right init a) (foldl_max_le_init xs (max init a))
    · exact ih (max init x) a h

theorem getLatestMessageId_is_max (db : MemoryDb) (chatId w : Nat)
    (h : getLatestMessageId db chatId = some w) :
    ∀ m ∈ db.messages chatId, m.id ≤ w := by
  intro m hm
  unfold getLatestMessageId at h
  rcases hl : db.messages chatId with _ | ⟨x, xs⟩
  · rw [hl] at hm; simp at hm
  · rw [hl] at h hm
    simp only at h
    rw [← Option.some.inj h]
    exact mem_le_foldl_max _ 0 m.id (List.mem_map_of_mem (fun z => z.id) hm)

/-- C7 (amended): watermark-incremental sync. On a non-paginated pass the
pipeline computes the watermark (the highest locally known message id) and
ingests — decrypts and persists — only response messages with a strictly
larger id; explicit scroll-back passes a `before_id` cursor and ingests the
returned page as is. The backend request itself carries only the chat id,
the optional `before_id` cursor and the fixed page limit 50: it always asks
for the latest page rather than a watermark-bounded range (old messages can
be re-transferred but are discarded client-side), and never the full
history. -/
theorem claim_C7_watermark_sync (db : MemoryDb) (chatId : Nat) (beforeId : Option Nat)
    (response : List ServerMessage) :
    (loadMessagesFetchRequest db chatId beforeId = ⟨chatId, beforeId, 50⟩) ∧
    (∀ w, getLatestMessageId db chatId = some w →
      (∀ m ∈ db.messages chatId, m.id ≤ w) ∧
      (∀ m ∈ (loadMessagesPlan db chatId none response).2, w < m.id ∧ m ∈ response)) ∧
    (getLatestMessageId db chatId = none →
      (loadMessagesPlan db chatId none response).2 = response) ∧
    (∀ b, (loadMessagesPlan db chatId (some b) response).2 = response) := by
  refine ⟨rfl, ?_, ?_, ?_⟩
  · intro w hw
    refine ⟨getLatestMessageId_is_max db chatId w hw, ?_⟩
    intro m hm
    simp only [loadMessagesPlan, hw] at hm
    have := List.of_mem_filter hm
    exact ⟨by simpa using this, List.mem_of_mem_filter hm⟩
  · intro hw
    simp [loadMessagesPlan, hw]
  · intro b
    simp [loadMessagesPlan]

/-- Counterexample for C7 as stated: the backend fetch is not
watermark-bounded. With message id 10 stored locally (watermark 10) the
request issued is identical to the one issued with an empty store, so the
transferred page may contain a message with id 5 ≤ 10 — the code merely
discards it client-side, ingesting only id 11. -/
theorem claim_C7_counterexample :
    getLatestMessageId (insertMessage emptyDb ⟨10, 1, 1, 1, none, [], [], none, 10, true⟩)
      1 = some 10 ∧
    loadMessagesFetchRequest (insertMessage emptyDb
        ⟨10, 1, 1, 1, none, [], [], none, 10, true⟩) 1 none =
      loadMessagesFetchRequest emptyDb 1 none ∧
    (loadMessagesPlan (insertMessage emptyDb ⟨10, 1, 1, 1, none, [], [], none, 10, true⟩)
        1 none
        [⟨5, 1, 1, none, [], [], 5⟩, ⟨11, 1, 1, none, [], [], 11⟩]).2 =
      [⟨11, 1, 1, none, [], [], 11⟩] := by
  refine ⟨by decide, rfl, by decide⟩

-- ==================== Claim C8: cached-key persistence ====================

/-- C8 (amended): a cached raw epoch key survives every local-store
operation that does not write that epoch id — message upserts, chat
upserts, chat metadata updates, plaintext back-fill, and epoch writes for
other epoch ids; it is removed by `clearChatData`/`clearAllData`, and it is
*rewritten* by the two operations that write the same epoch id:
`upsertEpoch` replaces the whole record, resetting `unwrapped_key` to its
optional argument (null when the argument is omitted), and
`storeUnwrappedEpochKey` overwrites it with the newly supplied key. -/
theorem claim_C8_cached_key_persistence (db : MemoryDb) (eid : Nat) (e : EpochData)
    (he : getEpoch db eid = some e) :
    (∀ m, getEpoch (insertMessage db m) eid = some e) ∧
    (∀ c, getEpoch (upsertChat db c) eid = some e) ∧
    (∀ cid lm t, getEpoch (updateChatLastMessage db cid lm t) eid = some e) ∧
    (∀ cid n, getEpoch (updateUnreadCount db cid n) eid = some e) ∧
    (∀ mid pt, getEpoch (updateMessagePlaintext db mid pt) eid = some e) ∧
    (∀ eid2 k, eid2 ≠ eid → getEpoch (storeUnwrappedEpochKey db eid2 k) eid = some e) ∧
    (∀ eid2 cid idx wk u, eid2 ≠ eid →
      getEpoch (upsertEpoch db eid2 cid idx wk u) eid = some e) ∧
    (∀ cid idx wk u, getEpoch (upsertEpoch db eid cid idx wk u) eid =
      some ⟨eid, cid, idx, wk, u⟩) ∧
    (∀ k, getEpoch (storeUnwrappedEpochKey db eid k) eid =
      some { e with unwrapped_key := some k }) := by
  refine ⟨?_, ?_, ?_, ?_, ?_, ?_, ?_, ?_, ?_⟩
  · intro m; simpa [insertMessage, getEpoch] using he
  · intro c; simpa [upsertChat, getEpoch] using he
  · intro cid lm t; simpa [updateChatLastMessage, getEpoch] using he
  · intro cid n; simpa [updateUnreadCount, getEpoch] using he
  · intro mid pt; simpa [updateMessagePlaintext, getEpoch] using he
  · intro eid2 k h2
    simpa [storeUnwrappedEpochKey, getEpoch, Ne.symm h2] using he
  · intro eid2 cid idx wk u h2
    simpa [upsertEpoch, getEpoch, Ne.symm h2] using he
  · intro cid idx wk u
    simp [upsertEpoch, getEpoch]
  · intro k
    rw [getEpoch_storeUnwrappedEpochKey, he]
    rfl

/-- Witness for C8 (amended): a cached key for epoch 7 survives an
unrelated message insert. -/
theorem claim_C8_witness :
    getEpoch (insertMessage (upsertEpoch emptyDb 7 1 0 [5] (some [9])) m3a) 7 =
      some ⟨7, 1, 0, [5], some [9]⟩ :=
  (claim_C8_cached_key_persistence (upsertEpoch emptyDb 7 1 0 [5] (some [9])) 7
    ⟨7, 1, 0, [5], some [9]⟩ (by decide)).1 m3a

/-- Counterexample for C8 as stated: calling `upsertEpoch` again for the
same epoch id — a local-store operation other than
`clearChatData`/`clearAllData` — replaces the record and resets a non-null
`unwrapped_key` to null, because the adapter stores `unwrappedKey ?? null`
unconditionally. -/
theorem claim_C8_counterexample :
    getEpoch (upsertEpoch emptyDb 7 1 0 [5] (some [9])) 7 = some ⟨7, 1, 0, [5], some [9]⟩ ∧
    getEpoch (upsertEpoch (upsertEpoch emptyDb 7 1 0 [5] (some [9])) 7 1 0 [5] none) 7 =
      some ⟨7, 1, 0, [5], none⟩ := by
  exact ⟨rfl, rfl⟩

-- ==================== Claim C9: bearer token, device id, 401 purge ====================

/-- C9: every authenticated REST request (one with `requiresAuth`, made
while a token is stored) carries the bearer token and the per-install
device identifier; a 401 response to an authenticated request purges the
entire local database together with the stored auth token and current
user, and the error is surfaced to the caller; any other failing status
surfaces the error with the local state untouched. -/
theorem claim_C9_auth_headers_and_purge (st : AuthState) (deviceId : Nat)
    (resp : HttpResponse) (tflag : Bool) :
    (∀ t, st.authToken = some t →
      ReqHeader.authorization t ∈ (request st deviceId true resp tflag).2.2 ∧
      ReqHeader.deviceId deviceId ∈ (request st deviceId true resp tflag).2.2) ∧
    (resp.status = 401 →
      (request st deviceId true resp tflag).1 = Except.error ⟨401, tflag⟩ ∧
      (request st deviceId true resp tflag).2.1.db = emptyDb ∧
      (request st deviceId true resp tflag).2.1.authToken = none ∧
      (request st deviceId true resp tflag).2.1.currentUser = none) ∧
    (respOk resp.status = false → resp.status ≠ 401 →
      (request st deviceId true resp tflag).1 = Except.error ⟨resp.status, tflag⟩ ∧
      (request st deviceId true resp tflag).2.1 = st) := by
  refine ⟨?_, ?_, ?_⟩
  · intro t ht
    have hh : (request st deviceId true resp tflag).2.2 =
        requestHeaders st.authToken deviceId true := by
      unfold request
      split <;> first | rfl | (split <;> rfl)
    rw [hh, ht]
    simp [requestHeaders]
  · intro h401
    have hnotok : respOk resp.status = false := by
      rw [h401]; rfl
    unfold request
    rw [hnotok, h401]
    simp [clearAllData]
  · intro hnotok hne
    unfold request
    rw [hnotok]
    simp only [Bool.false_eq_true, if_false]
    rw [if_neg (by simp [hne])]
    exact ⟨rfl, rfl⟩

end Omnis
